import Mathlib

/-!
The BBC Micro keyboard matrix of b-em (`src/keyboard.c`).

A shallow embedding of `keyboard.c`.  The file-level variables of the C file
(`keylookup`, `keyas`, `keypad`, `keycol`, `keyrow`, `bbckey`) form the record
`Keyboard`; the calls made to `sysvia_set_ca2` are recorded in the field `ca2`
(most recent call first).  The variables of other modules that the file only
reads (`IC32`, `MASTER`, `kbdips`) form the record `Machine`.

C `int` values are `Int`.  Every array access checks its index: a function
returns `none` exactly when the C code would index an array outside its
bounds.
-/

namespace BEm

/-! ## Allegro key codes

Values of the Allegro 5 constants that `keyboard.c` names; they agree with the
index comments of the `allegro2bbc` table. -/

def ALLEGRO_KEY_A : Int := 1
def ALLEGRO_KEY_PAD_0 : Int := 37
def ALLEGRO_KEY_PAD_1 : Int := 38
def ALLEGRO_KEY_PAD_2 : Int := 39
def ALLEGRO_KEY_PAD_3 : Int := 40
def ALLEGRO_KEY_PAD_4 : Int := 41
def ALLEGRO_KEY_PAD_5 : Int := 42
def ALLEGRO_KEY_PAD_6 : Int := 43
def ALLEGRO_KEY_PAD_7 : Int := 44
def ALLEGRO_KEY_PAD_8 : Int := 45
def ALLEGRO_KEY_PAD_9 : Int := 46
def ALLEGRO_KEY_INSERT : Int := 76
def ALLEGRO_KEY_HOME : Int := 78
def ALLEGRO_KEY_END : Int := 79
def ALLEGRO_KEY_PGUP : Int := 80
def ALLEGRO_KEY_PGDN : Int := 81
def ALLEGRO_KEY_LEFT : Int := 82
def ALLEGRO_KEY_RIGHT : Int := 83
def ALLEGRO_KEY_UP : Int := 84
def ALLEGRO_KEY_DOWN : Int := 85
def ALLEGRO_KEY_CAPSLOCK : Int := 226
def ALLEGRO_KEY_MAX : Nat := 227
def ALLEGRO_KEYMOD_NUMLOCK : Nat := 0x200

/-! ## The translation table -/

/-- The table `allegro2bbc[ALLEGRO_KEY_MAX]`: entry `code` is the packed matrix
coordinate (low nibble column, high nibble row) or the value `0xaa`. -/
def allegro2bbc : List Nat := [
  0xaa, 0x41, 0x64, 0x52, 0x32, 0x22, 0x43, 0x53, 0x54, 0x25, 0x45, 0x46,
  0x56, 0x65, 0x55, 0x36, 0x37, 0x10, 0x33, 0x51, 0x23, 0x35, 0x63, 0x21,
  0x42, 0x44, 0x61, 0x27, 0x30, 0x31, 0x11, 0x12, 0x13, 0x34, 0x24, 0x15,
  0x26, 0x6a, 0x6b, 0x7c, 0x6c, 0x7a, 0x7b, 0x1a, 0x1b, 0x2a, 0x2b, 0x20,
  0x71, 0x72, 0x73, 0x14, 0x74, 0x75, 0x16, 0x76, 0x77, 0x28, 0xaa, 0x70,
  0x28, 0x17, 0x18, 0x59, 0x60, 0x47, 0x38, 0x49, 0x57, 0x48, 0x58, 0x78,
  0x66, 0x67, 0x68, 0x62, 0xaa, 0x59, 0x5c, 0x69, 0xaa, 0x4c, 0x19, 0x79,
  0x39, 0x29, 0x4a, 0x5b, 0x3b, 0x3a, 0x59, 0x3c, 0x4c, 0xaa, 0x4c, 0xaa,
  0xaa, 0xaa, 0xaa, 0x00, 0x00, 0x01, 0xaa, 0x50, 0xaa, 0x57, 0xaa, 0x50,
  0xaa, 0xaa, 0xaa, 0xaa, 0xaa, 0xaa, 0xaa, 0xaa, 0xaa, 0xaa, 0xaa, 0xaa,
  0xaa, 0xaa, 0xaa, 0xaa, 0xaa, 0xaa, 0xaa, 0xaa, 0xaa, 0xaa, 0xaa, 0xaa,
  0xaa, 0xaa, 0xaa, 0xaa, 0xaa, 0xaa, 0xaa, 0xaa, 0xaa, 0xaa, 0xaa, 0xaa,
  0xaa, 0xaa, 0xaa, 0xaa, 0xaa, 0xaa, 0xaa, 0xaa, 0xaa, 0xaa, 0xaa, 0xaa,
  0xaa, 0xaa, 0xaa, 0xaa, 0xaa, 0xaa, 0xaa, 0xaa, 0xaa, 0xaa, 0xaa, 0xaa,
  0xaa, 0xaa, 0xaa, 0xaa, 0xaa, 0xaa, 0xaa, 0xaa, 0xaa, 0xaa, 0xaa, 0xaa,
  0xaa, 0xaa, 0xaa, 0xaa, 0xaa, 0xaa, 0xaa, 0xaa, 0xaa, 0xaa, 0xaa, 0xaa,
  0xaa, 0xaa, 0xaa, 0xaa, 0xaa, 0xaa, 0xaa, 0xaa, 0xaa, 0xaa, 0xaa, 0xaa,
  0xaa, 0xaa, 0xaa, 0xaa, 0xaa, 0xaa, 0xaa, 0xaa, 0xaa, 0xaa, 0xaa, 0x00,
  0x00, 0x01, 0x01, 0xaa, 0xaa, 0xaa, 0xaa, 0xaa, 0xaa, 0x71, 0x40]

/-- The array read `allegro2bbc[code]` for an `int code`. -/
def allegro2bbc_at (code : Int) : Option Nat :=
  if 0 ≤ code then allegro2bbc[code.toNat]? else none

/-! ## State -/

/-- The variables of `keyboard.c`, and the levels passed to `sysvia_set_ca2`
(most recent first). -/
structure Keyboard where
  keylookup : Fin 227 → Int
  keyas : Bool
  keypad : Bool
  keycol : Int
  keyrow : Int
  bbckey : Fin 16 → Fin 16 → Int
  ca2 : List Int

/-- The variables of other modules read by `keyboard.c`. -/
structure Machine where
  IC32 : Nat
  MASTER : Bool
  kbdips : Int

/-- The fields of `event->keyboard` read by `key_map`. -/
structure KeyboardEvent where
  keycode : Int
  unichar : Int
  modifiers : Nat

/-- An `int` used as an index into an array of `n` elements. -/
def index (n : Nat) (i : Int) : Option (Fin n) :=
  if h : 0 ≤ i ∧ i < n then some ⟨i.toNat, by omega⟩ else none

/-- The read `bbckey[col][row]`. -/
def bbckey_at (k : Keyboard) (col row : Int) : Option Int :=
  match index 16 col, index 16 row with
  | some c, some r => some (k.bbckey c r)
  | _, _ => none

/-- The assignment `bbckey[col][row] = v`. -/
def bbckey_set (k : Keyboard) (col row v : Int) : Option Keyboard :=
  match index 16 col, index 16 row with
  | some c, some r =>
    some { k with bbckey := fun c1 r1 => if c1 = c ∧ r1 = r then v else k.bbckey c1 r1 }
  | _, _ => none

/-- The read `keylookup[code]`. -/
def keylookup_at (k : Keyboard) (code : Int) : Option Int :=
  match index 227 code with
  | some i => some (k.keylookup i)
  | none => none

/-- The collaborator `sysvia_set_ca2(level)`: the level is recorded. -/
def sysvia_set_ca2 (level : Int) (k : Keyboard) : Keyboard :=
  { k with ca2 := level :: k.ca2 }

/-- The integers `lo, lo+1, ..., lo+n-1`: the values a C loop variable takes in
`for (i = lo; i < lo+n; i++)`. -/
def loop_range (lo : Int) : Nat → List Int
  | 0 => []
  | n + 1 => lo :: loop_range (lo + 1) n

/-! ## Operations -/

/-- The matrix after the store `bbckey[c][r] = v`. -/
def store (k : Keyboard) (c r : Fin 16) (v : Int) : Keyboard :=
  { k with bbckey := fun c1 r1 => if c1 = c ∧ r1 = r then v else k.bbckey c1 r1 }

/-- `key_clear`: the loops `for (c = 0; c < 16; c++) for (r = 0; r < 16; r++)
bbckey[c][r] = 0;` (their indices run over the dimensions of the array), then
`sysvia_set_ca2(0)`. -/
def key_clear (k : Keyboard) : Keyboard :=
  sysvia_set_ca2 0
    ((List.finRange 16).foldl
      (fun k1 c => (List.finRange 16).foldl (fun k2 r => store k2 c r 0) k1) k)

/-- The loop `for (row ...) if (bbckey[col][row]) return true;` over the rows
listed: `some true` when it returns early, `some false` when it runs to its end. -/
def scan_rows (k : Keyboard) (col : Int) : List Int → Option Bool
  | [] => some false
  | row :: rest =>
    match bbckey_at k col row with
    | none => none
    | some v => if v ≠ 0 then some true else scan_rows k col rest

/-- The loop over columns around `scan_rows`. -/
def scan_cols (k : Keyboard) (rows : List Int) : List Int → Option Bool
  | [] => some false
  | col :: rest =>
    match scan_rows k col rows with
    | none => none
    | some true => some true
    | some false => scan_cols k rows rest

/-- The local `maxcol` of `key_update`: `(MASTER) ? 13 : 10`. -/
def maxcol (mc : Machine) : Nat := if mc.MASTER then 13 else 10

/-- `key_update`: recompute the interrupt level and pass it to `sysvia_set_ca2`. -/
def key_update (mc : Machine) (k : Keyboard) : Option Keyboard :=
  if mc.IC32 &&& 8 ≠ 0 then
    match scan_cols k (loop_range 1 7) (loop_range 0 (maxcol mc)) with
    | none => none
    | some true => some (sysvia_set_ca2 1 k)
    | some false => some (sysvia_set_ca2 0 k)
  else if k.keycol < maxcol mc then
    match scan_rows k k.keycol (loop_range 1 7) with
    | none => none
    | some true => some (sysvia_set_ca2 1 k)
    | some false => some (sysvia_set_ca2 0 k)
  else some (sysvia_set_ca2 0 k)

/-- The table `map_keypad`. -/
def map_keypad : List Int := [
  ALLEGRO_KEY_INSERT, ALLEGRO_KEY_END, ALLEGRO_KEY_DOWN, ALLEGRO_KEY_PGDN,
  ALLEGRO_KEY_LEFT, ALLEGRO_KEY_PAD_5, ALLEGRO_KEY_RIGHT, ALLEGRO_KEY_HOME,
  ALLEGRO_KEY_UP, ALLEGRO_KEY_PGUP]

/-- The read `map_keypad[i]`. -/
def map_keypad_at (i : Int) : Option Int :=
  if 0 ≤ i then map_keypad[i.toNat]? else none

/-- `key_map`: the host code after the two substitutions and the user table
(the `log_debug` call only writes to the log and is left out). -/
def key_map (k : Keyboard) (event : KeyboardEvent) : Option Int :=
  let code := event.keycode
  if code < ALLEGRO_KEY_MAX then
    let code1 : Option Int :=
      if code = ALLEGRO_KEY_A then
        (if k.keyas then some ALLEGRO_KEY_CAPSLOCK else some code)
      else if code ≥ ALLEGRO_KEY_PAD_0 ∧ code ≤ ALLEGRO_KEY_PAD_9 ∧ k.keypad = true
          ∧ ¬ (event.modifiers &&& ALLEGRO_KEYMOD_NUMLOCK ≠ 0) then
        map_keypad_at (code - ALLEGRO_KEY_PAD_0)
      else some code
    match code1 with
    | none => none
    | some c => keylookup_at k c
  else some code

/-- `set_key` (the `log_debug` call only writes to the log and is left out). -/
def set_key (mc : Machine) (code state : Int) (k : Keyboard) : Option Keyboard :=
  match allegro2bbc_at code with
  | none => none
  | some vkey =>
    if vkey ≠ 0xaa then
      match bbckey_set k ((vkey &&& 15 : Nat) : Int) ((vkey >>> 4 : Nat) : Int) state with
      | none => none
      | some k1 => key_update mc k1
    else some k

/-- `key_down`: `set_key(code, 1)`. -/
def key_down (mc : Machine) (code : Int) (k : Keyboard) : Option Keyboard :=
  set_key mc code 1 k

/-- `key_up`: `set_key(code, 0)`. -/
def key_up (mc : Machine) (code : Int) (k : Keyboard) : Option Keyboard :=
  set_key mc code 0 k

/-- `key_scan`: store the selection, then `key_update`. -/
def key_scan (mc : Machine) (row col : Int) (k : Keyboard) : Option Keyboard :=
  key_update mc { k with keyrow := row, keycol := col }

/-- `key_is_down`: the `bool` returned is whether the `int` expression is non-zero. -/
def key_is_down (mc : Machine) (k : Keyboard) : Option Bool :=
  if k.keyrow = 0 ∧ k.keycol ≥ 2 ∧ k.keycol ≤ 9 then
    some (decide (Int.land mc.kbdips ((1 : Int) <<< (9 - k.keycol)) ≠ 0))
  else
    match bbckey_at k k.keycol k.keyrow with
    | none => none
    | some v => some (decide (v ≠ 0))

/-- `key_any_down`: columns 0-15, rows 1-15. -/
def key_any_down (k : Keyboard) : Option Bool :=
  scan_cols k (loop_range 1 15) (loop_range 0 16)

/-- `key_code_down`: the cell of the table entry, for a code below `ALLEGRO_KEY_MAX`. -/
def key_code_down (k : Keyboard) (code : Int) : Option Bool :=
  if code < ALLEGRO_KEY_MAX then
    match allegro2bbc_at code with
    | none => none
    | some v =>
      match bbckey_at k ((v &&& 0x0f : Nat) : Int) ((v >>> 4 : Nat) : Int) with
      | none => none
      | some b => some (decide (b ≠ 0))
  else some false

/-! ## Vocabulary of the statements -/

/-- The level of the interrupt line: the argument of the most recent call of
`sysvia_set_ca2`, if there was one. -/
def ca2_level (k : Keyboard) : Option Int := k.ca2.head?

/-- Column designated by a table entry: its low nibble. -/
def vkey_col (v : Nat) : Fin 16 := Fin.ofNat (v &&& 15)

/-- Row designated by a table entry: its high nibble. -/
def vkey_row (v : Nat) : Fin 16 := Fin.ofNat (v >>> 4)

/-- A host key event as delivered to `key_down` or `key_up`. -/
inductive Input where
  | down (code : Int)
  | up (code : Int)

/-- Host code of an event. -/
def Input.code : Input → Int
  | .down c => c
  | .up c => c

/-- Whether the event is a key-down. -/
def Input.is_down : Input → Bool
  | .down _ => true
  | .up _ => false

/-- The call an event stands for. -/
def Input.apply (mc : Machine) : Input → Keyboard → Option Keyboard
  | .down c, k => key_down mc c k
  | .up c, k => key_up mc c k

/-- The calls of a sequence of events, in order. -/
def run (mc : Machine) : List Input → Keyboard → Option Keyboard
  | [], k => some k
  | e :: es, k =>
    match e.apply mc k with
    | none => none
    | some k1 => run mc es k1

/-- Whether host code `c` is held after the events: its most recent event, if
any, is a key-down. -/
def held (evs : List Input) (c : Int) : Bool :=
  evs.foldl (fun h e => if e.code = c then e.is_down else h) false

/-- The value an event stores into its cell: 1 for `key_down`, 0 for `key_up`. -/
def Input.state : Input → Int
  | .down _ => 1
  | .up _ => 0

/-- Whether host code `code` maps to cell `(c, r)`: it has a table entry other
than `0xaa` whose low nibble is `c` and whose high nibble is `r`. -/
def maps_to (code : Int) (c r : Fin 16) : Bool :=
  match allegro2bbc_at code with
  | some v => decide (v ≠ 0xaa ∧ vkey_col v = c ∧ vkey_row v = r)
  | none => false

/-- Whether the code of the event maps to cell `(c, r)`. -/
def Input.hits (e : Input) (c r : Fin 16) : Bool := maps_to e.code c r

/-- The content of cell `(c, r)` that started as `x`, when each event that hits
the cell overwrites it (the last write wins). -/
def last_write (evs : List Input) (c r : Fin 16) (x : Int) : Int :=
  evs.foldl (fun y e => if e.hits c r = true then e.state else y) x

/-- The values of the variables of `keyboard.c` at program start. -/
def initial : Keyboard where
  keylookup := fun _ => 0
  keyas := false
  keypad := false
  keycol := 0
  keyrow := 0
  bbckey := fun _ _ => 0
  ca2 := []

/-- A Model B in autoscan mode (`IC32 = 8`). -/
def model_b_autoscan : Machine := { IC32 := 8, MASTER := false, kbdips := 0 }

/-- A Master in autoscan mode (`IC32 = 8`). -/
def master_autoscan : Machine := { IC32 := 8, MASTER := true, kbdips := 0 }

/-- A Model B in the scan-specific-key mode (`IC32 = 0`). -/
def model_b_column : Machine := { IC32 := 0, MASTER := false, kbdips := 0 }

/-- The autoscan invariant: the level last emitted is 1 exactly when a cell of
rows 1-7 in the wired columns is set. -/
def autoscan_level_ok (mc : Machine) (k : Keyboard) : Prop :=
  ∃ b : Bool, ca2_level k = some (if b = true then 1 else 0) ∧
    (b = true ↔ ∃ c r : Fin 16, c.val < maxcol mc ∧ 1 ≤ r.val ∧ r.val < 8 ∧
      k.bbckey c r ≠ 0)

/-- The state `k` with the user table `keylookup` set to the identity. -/
def with_identity_lookup (k : Keyboard) : Keyboard :=
  { k with keylookup := fun i => (i.val : Int) }

/-- The pairs (code, entry) of the table whose entry is not `0xaa`. -/
def mapped_entries : List (Nat × Nat) := allegro2bbc.enum.filter (fun p => p.2 != 0xaa)

/-- The table entries carried by more than one host code, each with the codes
that carry it: Shift, Ctrl, the pound key (F11, tilde), keypad dot (PgDn, PrintScreen,
ABNT C1), Shift Lock (keypad =, Back), semicolon, Delete (Backspace, Delete,
keypad Delete), f1 (F2, Num Lock). -/
def shared_entries : List (Nat × List Int) := [
  (0x00, [99, 100, 215, 216]), (0x01, [101, 217, 218]), (0x28, [57, 60]),
  (0x4c, [81, 92, 94]), (0x50, [103, 107]), (0x57, [68, 105]), (0x59, [63, 77, 90]),
  (0x71, [48, 225])]

/-- The level `key_update` emits from state `k`. -/
def key_level (mc : Machine) (k : Keyboard) : Option Int :=
  (key_update mc k).bind ca2_level

/-- The interrupt-level invariant: the level last passed to `sysvia_set_ca2` is
the level `key_update` computes from the matrix, the selected column and the mode. -/
def level_ok (mc : Machine) (k : Keyboard) : Prop :=
  ∃ lvl, ca2_level k = some lvl ∧ key_level mc k = some lvl

/-- The states reached from `key_clear` by calls of `key_down`, `key_up` and
`key_scan` that return (a call of `key_down` or `key_up` returns only for a code
in `[0, ALLEGRO_KEY_MAX)`); the machine may differ from call to call. -/
inductive Reachable : Keyboard → Prop where
  | clear (k : Keyboard) : Reachable (key_clear k)
  | down (mc : Machine) (code : Int) (k k1 : Keyboard) :
      Reachable k → key_down mc code k = some k1 → Reachable k1
  | up (mc : Machine) (code : Int) (k k1 : Keyboard) :
      Reachable k → key_up mc code k = some k1 → Reachable k1
  | scan (mc : Machine) (row col : Int) (k k1 : Keyboard) :
      Reachable k → key_scan mc row col k = some k1 → Reachable k1

/-- The state `key_down` of keypad 2 (code 39, entry 0x7c) returns on a Master
in autoscan mode after `key_clear` of the initial state: cell (12, 7) is set and
level 1 was emitted. -/
def keypad_two_down : Keyboard := sysvia_set_ca2 1 (store (key_clear initial) 12 7 1)

/-- The state `key_down` of Q (code 17, entry 0x10) returns on a Model B in the
scan-specific-key mode, column 0 selected, after `key_clear` of the initial
state: cell (0, 1) is set and level 1 was emitted. -/
def q_down : Keyboard := sysvia_set_ca2 1 (store (key_clear initial) 0 1 1)

/-- The state `key_scan(0, 12)` returns from `q_down` on a Model B in the
scan-specific-key mode: column 12 is selected and level 0 was emitted. -/
def column_twelve_selected : Keyboard :=
  sysvia_set_ca2 0 { q_down with keyrow := 0, keycol := 12 }

/-! ## Array accesses -/

theorem index_of_nat (n i : Nat) (h : i < n) : index n (i : Int) = some ⟨i, h⟩ := by
  unfold index
  have : (0 : Int) ≤ (i : Int) ∧ (i : Int) < (n : Int) := ⟨by omega, by omega⟩
  rw [dif_pos this]
  simp

theorem index_some {n : Nat} {i : Int} {c : Fin n} (h : index n i = some c) :
    i = (c.val : Int) := by
  unfold index at h
  split at h
  · simp at h
    rw [← h]
    simp
    omega
  · simp at h

theorem index_fin {n : Nat} (c : Fin n) : index n (c.val : Int) = some c :=
  index_of_nat n c.val c.isLt

theorem index_none {n : Nat} {i : Int} (h : i < 0 ∨ (n : Int) ≤ i) : index n i = none := by
  unfold index
  rw [dif_neg]
  omega

set_option maxRecDepth 100000 in
theorem table_entries_lt : ∀ v ∈ allegro2bbc, v < 256 := by decide

theorem allegro2bbc_at_lt {code : Int} {v : Nat} (h : allegro2bbc_at code = some v) :
    v < 256 := by
  unfold allegro2bbc_at at h
  split at h
  · exact table_entries_lt v (List.getElem?_mem h)
  · simp at h

theorem allegro2bbc_at_range {code : Int} {v : Nat} (h : allegro2bbc_at code = some v) :
    0 ≤ code ∧ code < 227 := by
  unfold allegro2bbc_at at h
  split at h
  · rename_i h0
    have := (List.getElem?_eq_some.mp h).1
    have hl : allegro2bbc.length = 227 := rfl
    omega
  · simp at h

theorem allegro2bbc_at_some {code : Int} (h0 : 0 ≤ code) (h1 : code < 227) :
    ∃ v, allegro2bbc_at code = some v := by
  unfold allegro2bbc_at
  rw [if_pos h0]
  have hl : code.toNat < allegro2bbc.length := by
    have : allegro2bbc.length = 227 := rfl
    omega
  exact ⟨allegro2bbc[code.toNat], List.getElem?_eq_getElem hl⟩

set_option maxRecDepth 100000 in
theorem nibbles_lt : ∀ v < 256, v &&& 15 < 16 ∧ v >>> 4 < 16 := by decide

theorem index_vkey_col {v : Nat} (h : v < 256) :
    index 16 ((v &&& 15 : Nat) : Int) = some (vkey_col v) := by
  rw [index_of_nat 16 _ (nibbles_lt v h).1]
  simp [vkey_col, Fin.ofNat, Nat.mod_eq_of_lt (nibbles_lt v h).1]

theorem index_vkey_row {v : Nat} (h : v < 256) :
    index 16 ((v >>> 4 : Nat) : Int) = some (vkey_row v) := by
  rw [index_of_nat 16 _ (nibbles_lt v h).2]
  simp [vkey_row, Fin.ofNat, Nat.mod_eq_of_lt (nibbles_lt v h).2]

theorem vkey_col_val {v : Nat} (h : v < 256) : (vkey_col v).val = v &&& 15 := by
  simp [vkey_col, Fin.ofNat, Nat.mod_eq_of_lt (nibbles_lt v h).1]

theorem vkey_row_val {v : Nat} (h : v < 256) : (vkey_row v).val = v >>> 4 := by
  simp [vkey_row, Fin.ofNat, Nat.mod_eq_of_lt (nibbles_lt v h).2]

theorem bbckey_at_fin (k : Keyboard) (c r : Fin 16) :
    bbckey_at k (c.val : Int) (r.val : Int) = some (k.bbckey c r) := by
  unfold bbckey_at
  rw [index_fin, index_fin]

theorem bbckey_set_vkey (k : Keyboard) {v : Nat} (h : v < 256) (st : Int) :
    bbckey_set k ((v &&& 15 : Nat) : Int) ((v >>> 4 : Nat) : Int) st
      = some (store k (vkey_col v) (vkey_row v) st) := by
  unfold bbckey_set
  rw [index_vkey_col h, index_vkey_row h]
  rfl

/-! ## The loops of `key_clear` -/

theorem sysvia_set_ca2_keycol (lvl : Int) (k : Keyboard) :
    (sysvia_set_ca2 lvl k).keycol = k.keycol := rfl

theorem store_keycol (k : Keyboard) (c r : Fin 16) (v : Int) :
    (store k c r v).keycol = k.keycol := rfl

theorem clear_rows_eq (c : Fin 16) (l : List (Fin 16)) :
    ∀ k : Keyboard, l.foldl (fun k2 r => store k2 c r 0) k
      = { k with bbckey := fun c1 r1 => if c1 = c ∧ r1 ∈ l then 0 else k.bbckey c1 r1 } := by
  induction l with
  | nil =>
    intro k
    simp
  | cons r l ih =>
    intro k
    rw [List.foldl_cons, ih]
    simp only [store]
    congr 1
    funext c1 r1
    by_cases h1 : c1 = c
    · by_cases h2 : r1 ∈ l
      · simp [h1, h2]
      · by_cases h3 : r1 = r
        · simp [h1, h3]
        · simp [h1, h2, h3]
    · simp [h1]

theorem clear_cols_eq (l : List (Fin 16)) :
    ∀ k : Keyboard,
      l.foldl (fun k1 c => (List.finRange 16).foldl (fun k2 r => store k2 c r 0) k1) k
        = { k with bbckey := fun c1 r1 => if c1 ∈ l then 0 else k.bbckey c1 r1 } := by
  induction l with
  | nil =>
    intro k
    simp
  | cons c l ih =>
    intro k
    rw [List.foldl_cons, ih, clear_rows_eq]
    congr 1
    funext c1 r1
    by_cases h1 : c1 ∈ l
    · simp [h1]
    · by_cases h2 : c1 = c
      · simp [h2, List.mem_finRange]
      · simp [h1, h2]

/-- The loops of `key_clear` leave a matrix that is 0 everywhere and change no
other variable. -/
theorem key_clear_eq (k : Keyboard) :
    key_clear k = sysvia_set_ca2 0 { k with bbckey := fun _ _ => 0 } := by
  unfold key_clear
  rw [clear_cols_eq]
  congr 2
  funext c1 r1
  simp [List.mem_finRange]

theorem key_clear_bbckey (k : Keyboard) (c r : Fin 16) : (key_clear k).bbckey c r = 0 := by
  rw [key_clear_eq]
  rfl

theorem key_clear_keycol (k : Keyboard) : (key_clear k).keycol = k.keycol := by
  rw [key_clear_eq]
  rfl

/-! ## The scanning loops -/

theorem scan_rows_loop (k : Keyboard) (col : Int) (c : Fin 16) (hc : index 16 col = some c) :
    ∀ (n lo : Nat), lo + n ≤ 16 →
      ∃ b, scan_rows k col (loop_range (lo : Int) n) = some b ∧
        (b = true ↔ ∃ r : Fin 16, lo ≤ r.val ∧ r.val < lo + n ∧ k.bbckey c r ≠ 0) := by
  intro n
  induction n with
  | zero =>
    intro lo _
    refine ⟨false, rfl, ?_⟩
    constructor
    · intro h; cases h
    · rintro ⟨r, h1, h2, _⟩; omega
  | succ n ih =>
    intro lo hlo
    have hlt : lo < 16 := by omega
    have hrd : bbckey_at k col (lo : Int) = some (k.bbckey c ⟨lo, hlt⟩) := by
      unfold bbckey_at
      rw [hc, index_of_nat 16 lo hlt]
    by_cases hv : k.bbckey c ⟨lo, hlt⟩ = 0
    · obtain ⟨b, hb, hiff⟩ := ih (lo + 1) (by omega)
      refine ⟨b, ?_, ?_⟩
      · show scan_rows k col ((lo : Int) :: loop_range ((lo : Int) + 1) n) = some b
        unfold scan_rows
        rw [hrd]
        simp only [hv, ne_eq, not_true_eq_false, if_false]
        exact_mod_cast hb
      · rw [hiff]
        constructor
        · rintro ⟨r, h1, h2, h3⟩
          exact ⟨r, by omega, by omega, h3⟩
        · rintro ⟨r, h1, h2, h3⟩
          refine ⟨r, ?_, by omega, h3⟩
          by_contra hcon
          have : r = ⟨lo, hlt⟩ := Fin.ext (by simp; omega)
          rw [this] at h3
          exact h3 hv
    · refine ⟨true, ?_, ?_⟩
      · show scan_rows k col ((lo : Int) :: loop_range ((lo : Int) + 1) n) = some true
        unfold scan_rows
        rw [hrd]
        simp [hv]
      · simp only [true_iff]
        exact ⟨⟨lo, hlt⟩, le_refl _, by simp, hv⟩

theorem scan_rows_fault (k : Keyboard) (col : Int) (hc : index 16 col = none)
    (row : Int) (rest : List Int) : scan_rows k col (row :: rest) = none := by
  unfold scan_rows bbckey_at
  rw [hc]

theorem scan_cols_loop (k : Keyboard) (rlo rn : Nat) (hr : rlo + rn ≤ 16) :
    ∀ (n lo : Nat), lo + n ≤ 16 →
      ∃ b, scan_cols k (loop_range (rlo : Int) rn) (loop_range (lo : Int) n) = some b ∧
        (b = true ↔ ∃ c r : Fin 16, lo ≤ c.val ∧ c.val < lo + n ∧
          rlo ≤ r.val ∧ r.val < rlo + rn ∧ k.bbckey c r ≠ 0) := by
  intro n
  induction n with
  | zero =>
    intro lo _
    refine ⟨false, rfl, ?_⟩
    constructor
    · intro h; cases h
    · rintro ⟨c, r, h1, h2, _⟩; omega
  | succ n ih =>
    intro lo hlo
    have hlt : lo < 16 := by omega
    obtain ⟨b0, hb0, hiff0⟩ :=
      scan_rows_loop k (lo : Int) ⟨lo, hlt⟩ (index_of_nat 16 lo hlt) rn rlo hr
    cases b0 with
    | true =>
      refine ⟨true, ?_, ?_⟩
      · show scan_cols k _ ((lo : Int) :: loop_range ((lo : Int) + 1) n) = some true
        unfold scan_cols
        rw [hb0]
      · simp only [true_iff]
        obtain ⟨r, h1, h2, h3⟩ := hiff0.mp rfl
        exact ⟨⟨lo, hlt⟩, r, le_refl _, by simp, h1, h2, h3⟩
    | false =>
      obtain ⟨b, hb, hiff⟩ := ih (lo + 1) (by omega)
      refine ⟨b, ?_, ?_⟩
      · show scan_cols k _ ((lo : Int) :: loop_range ((lo : Int) + 1) n) = some b
        unfold scan_cols
        rw [hb0]
        exact_mod_cast hb
      · rw [hiff]
        constructor
        · rintro ⟨c, r, h1, h2, h3⟩
          exact ⟨c, r, by omega, by omega, h3⟩
        · rintro ⟨c, r, h1, h2, h3, h4, h5⟩
          refine ⟨c, r, ?_, by omega, h3, h4, h5⟩
          by_contra hcon
          have hc : c = ⟨lo, hlt⟩ := Fin.ext (by simp; omega)
          rw [hc] at h5
          have : false = true := hiff0.mpr ⟨r, h3, h4, h5⟩
          cases this

/-! ## The interrupt level -/

theorem maxcol_le (mc : Machine) : maxcol mc ≤ 13 := by
  unfold maxcol
  split <;> omega

/-- In autoscan mode `key_update` emits 1 when some cell of rows 1-7 in the wired
columns is set, and 0 otherwise. -/
theorem key_update_autoscan (mc : Machine) (k : Keyboard) (h : mc.IC32 &&& 8 ≠ 0) :
    ∃ b, key_update mc k = some (sysvia_set_ca2 (if b = true then 1 else 0) k) ∧
      (b = true ↔ ∃ c r : Fin 16, c.val < maxcol mc ∧ 1 ≤ r.val ∧ r.val < 8 ∧
        k.bbckey c r ≠ 0) := by
  obtain ⟨b, hb, hiff⟩ := scan_cols_loop k 1 7 (by omega) (maxcol mc) 0
    (by have := maxcol_le mc; omega)
  refine ⟨b, ?_, ?_⟩
  · unfold key_update
    rw [if_pos h]
    have hb1 : scan_cols k (loop_range 1 7) (loop_range 0 (maxcol mc)) = some b := by
      exact_mod_cast hb
    rw [hb1]
    cases b <;> rfl
  · rw [hiff]
    constructor
    · rintro ⟨c, r, _, h2, h3, h4, h5⟩
      exact ⟨c, r, by omega, h3, by omega, h5⟩
    · rintro ⟨c, r, h2, h3, h4, h5⟩
      exact ⟨c, r, by omega, by omega, h3, by omega, h5⟩

/-- In the scan-specific-key mode, with a selected column that is wired,
`key_update` emits 1 when some cell of rows 1-7 of that column is set. -/
theorem key_update_column (mc : Machine) (k : Keyboard) (h : mc.IC32 &&& 8 = 0)
    (c : Fin 16) (hc : k.keycol = (c.val : Int)) (hlt : c.val < maxcol mc) :
    ∃ b, key_update mc k = some (sysvia_set_ca2 (if b = true then 1 else 0) k) ∧
      (b = true ↔ ∃ r : Fin 16, 1 ≤ r.val ∧ r.val < 8 ∧ k.bbckey c r ≠ 0) := by
  obtain ⟨b, hb, hiff⟩ := scan_rows_loop k k.keycol c (by rw [hc]; exact index_fin c) 7 1
    (by omega)
  refine ⟨b, ?_, ?_⟩
  · unfold key_update
    have h1 : ¬ (mc.IC32 &&& 8 ≠ 0) := by simp [h]
    rw [if_neg h1]
    have h2 : k.keycol < (maxcol mc : Int) := by rw [hc]; exact_mod_cast hlt
    rw [if_pos h2]
    have hb1 : scan_rows k k.keycol (loop_range 1 7) = some b := by exact_mod_cast hb
    rw [hb1]
    cases b <;> rfl
  · exact hiff

theorem key_update_column_unwired (mc : Machine) (k : Keyboard) (h : mc.IC32 &&& 8 = 0)
    (hge : (maxcol mc : Int) ≤ k.keycol) :
    key_update mc k = some (sysvia_set_ca2 0 k) := by
  unfold key_update
  have h1 : ¬ (mc.IC32 &&& 8 ≠ 0) := by simp [h]
  rw [if_neg h1]
  have h2 : ¬ (k.keycol < (maxcol mc : Int)) := by omega
  rw [if_neg h2]

theorem key_update_column_fault (mc : Machine) (k : Keyboard) (h : mc.IC32 &&& 8 = 0)
    (hneg : k.keycol < 0) : key_update mc k = none := by
  unfold key_update
  have h1 : ¬ (mc.IC32 &&& 8 ≠ 0) := by simp [h]
  rw [if_neg h1]
  have h2 : k.keycol < (maxcol mc : Int) := by omega
  rw [if_pos h2]
  show (match scan_rows k k.keycol ((1 : Int) :: loop_range (1 + 1) 6) with
    | none => none
    | some true => some (sysvia_set_ca2 1 k)
    | some false => some (sysvia_set_ca2 0 k)) = none
  rw [scan_rows_fault k k.keycol (index_none (Or.inl hneg))]

/-! ## Key events -/

theorem set_key_mapped (mc : Machine) (k : Keyboard) {code : Int} {v : Nat} (st : Int)
    (hv : allegro2bbc_at code = some v) (hne : v ≠ 0xaa) :
    set_key mc code st k = key_update mc (store k (vkey_col v) (vkey_row v) st) := by
  unfold set_key
  rw [hv]
  simp only [hne, ne_eq, not_false_eq_true, if_true]
  rw [bbckey_set_vkey k (allegro2bbc_at_lt hv)]

theorem set_key_unmapped (mc : Machine) (k : Keyboard) {code : Int} (st : Int)
    (hv : allegro2bbc_at code = some 0xaa) : set_key mc code st k = some k := by
  unfold set_key
  rw [hv]
  simp

theorem key_update_eq {mc : Machine} {k k1 : Keyboard} (h : key_update mc k = some k1) :
    ∃ lvl, k1 = sysvia_set_ca2 lvl k := by
  unfold key_update at h
  split at h
  · split at h
    · simp at h
    · exact ⟨1, by simpa using h.symm⟩
    · exact ⟨0, by simpa using h.symm⟩
  · split at h
    · split at h
      · simp at h
      · exact ⟨1, by simpa using h.symm⟩
      · exact ⟨0, by simpa using h.symm⟩
    · exact ⟨0, by simpa using h.symm⟩

theorem Input.apply_eq (mc : Machine) (e : Input) (k : Keyboard) :
    e.apply mc k = set_key mc e.code e.state k := by
  cases e <;> rfl

theorem Input.hits_iff (e : Input) (c r : Fin 16) :
    e.hits c r = true ↔
      ∃ v, allegro2bbc_at e.code = some v ∧ v ≠ 0xaa ∧ vkey_col v = c ∧ vkey_row v = r := by
  unfold Input.hits maps_to
  cases hv : allegro2bbc_at e.code with
  | none => simp
  | some v =>
    simp only [decide_eq_true_eq]
    constructor
    · intro h
      exact ⟨v, rfl, h⟩
    · rintro ⟨w, hw, h⟩
      have : v = w := by simpa using hw
      rw [this]
      exact h

/-- Effect of one event on the matrix: the cell the event hits takes the value
of the event, every other cell keeps its content. -/
theorem Input.apply_bbckey {mc : Machine} {e : Input} {k k1 : Keyboard}
    (h : e.apply mc k = some k1) (c r : Fin 16) :
    k1.bbckey c r = if e.hits c r = true then e.state else k.bbckey c r := by
  rw [Input.apply_eq] at h
  cases hv : allegro2bbc_at e.code with
  | none =>
    unfold set_key at h
    rw [hv] at h
    simp at h
  | some v =>
    by_cases hne : v = 0xaa
    · subst hne
      rw [set_key_unmapped mc k _ hv] at h
      have hk : k1 = k := by simpa using h.symm
      have hh : e.hits c r = false := by
        unfold Input.hits maps_to
        rw [hv]
        simp
      rw [hh, hk]
      simp
    · rw [set_key_mapped mc k _ hv hne] at h
      obtain ⟨lvl, hk⟩ := key_update_eq h
      rw [hk]
      have hh : e.hits c r = decide (vkey_col v = c ∧ vkey_row v = r) := by
        unfold Input.hits maps_to
        rw [hv]
        simp [hne]
      rw [hh]
      simp only [sysvia_set_ca2, store, decide_eq_true_eq]
      by_cases hc : c = vkey_col v ∧ r = vkey_row v
      · rw [if_pos hc, if_pos ⟨hc.1.symm, hc.2.symm⟩]
      · rw [if_neg hc, if_neg (fun h2 => hc ⟨h2.1.symm, h2.2.symm⟩)]

theorem run_bbckey (mc : Machine) (evs : List Input) :
    ∀ (k k1 : Keyboard), run mc evs k = some k1 →
      ∀ c r : Fin 16, k1.bbckey c r = last_write evs c r (k.bbckey c r) := by
  induction evs with
  | nil =>
    intro k k1 h c r
    have : k1 = k := by simpa [run] using h.symm
    rw [this]
    rfl
  | cons e es ih =>
    intro k k1 h c r
    unfold run at h
    cases he : e.apply mc k with
    | none => rw [he] at h; simp at h
    | some k2 =>
      rw [he] at h
      rw [ih k2 k1 h c r, Input.apply_bbckey he c r]
      rfl

/-- An invariant that every event of the sequence establishes again, from a
state where it holds, holds at the end, and the sequence runs to its end. -/
theorem run_invariant (mc : Machine) (I : Keyboard → Prop) (evs : List Input)
    (hstep : ∀ e ∈ evs, ∀ k, I k → ∃ k1, e.apply mc k = some k1 ∧ I k1) :
    ∀ k, I k → ∃ k1, run mc evs k = some k1 ∧ I k1 := by
  induction evs with
  | nil =>
    intro k hk
    exact ⟨k, rfl, hk⟩
  | cons e es ih =>
    intro k hk
    obtain ⟨k2, h2, hI2⟩ := hstep e (List.mem_cons_self e es) k hk
    obtain ⟨k1, h1, hI1⟩ :=
      ih (fun e1 he1 => hstep e1 (List.mem_cons_of_mem e he1)) k2 hI2
    refine ⟨k1, ?_, hI1⟩
    unfold run
    rw [h2]
    exact h1

theorem last_write_append (evs : List Input) (e : Input) (c r : Fin 16) (x : Int) :
    last_write (evs ++ [e]) c r x
      = if e.hits c r = true then e.state else last_write evs c r x := by
  simp [last_write, List.foldl_append]

theorem held_append (evs : List Input) (e : Input) (code : Int) :
    held (evs ++ [e]) code = if e.code = code then e.is_down else held evs code := by
  simp [held, List.foldl_append]

theorem Input.hits_code {e1 e2 : Input} (h : e1.code = e2.code) (c r : Fin 16) :
    e1.hits c r = e2.hits c r := by
  unfold Input.hits
  rw [h]

theorem Input.state_ne_zero {e : Input} (h : e.state ≠ 0) : e.is_down = true := by
  cases e
  · rfl
  · exact absurd rfl h

/-- A cell that started clear and is set after the events was hit by an event
whose code is still held. -/
theorem last_write_held (evs : List Input) (c r : Fin 16) :
    last_write evs c r 0 ≠ 0 → ∃ e ∈ evs, e.hits c r = true ∧ held evs e.code = true := by
  induction evs using List.reverseRecOn with
  | nil =>
    intro h
    exact absurd rfl h
  | append_singleton es e ih =>
    intro h
    rw [last_write_append] at h
    by_cases hh : e.hits c r = true
    · rw [if_pos hh] at h
      refine ⟨e, by simp, hh, ?_⟩
      rw [held_append, if_pos rfl]
      exact Input.state_ne_zero h
    · rw [if_neg hh] at h
      obtain ⟨e1, hmem, hhit, hheld⟩ := ih h
      refine ⟨e1, by simp [hmem], hhit, ?_⟩
      rw [held_append]
      have hne : e.code ≠ e1.code := by
        intro heq
        rw [Input.hits_code heq] at hh
        exact hh hhit
      rw [if_neg hne]
      exact hheld

set_option maxRecDepth 100000 in
theorem table_mapped_bounds :
    ∀ v ∈ allegro2bbc, v ≠ 0xaa → v >>> 4 < 8 ∧ v &&& 15 < 13 := by decide

theorem allegro2bbc_at_mem {code : Int} {v : Nat} (h : allegro2bbc_at code = some v) :
    v ∈ allegro2bbc := by
  unfold allegro2bbc_at at h
  split at h
  · exact List.getElem?_mem h
  · simp at h

theorem ca2_level_set (lvl : Int) (k : Keyboard) :
    ca2_level (sysvia_set_ca2 lvl k) = some lvl := rfl

theorem autoscan_step (mc : Machine) (hauto : mc.IC32 &&& 8 ≠ 0) (e : Input)
    (he : 0 ≤ e.code ∧ e.code < (ALLEGRO_KEY_MAX : Int)) (k : Keyboard)
    (hk : autoscan_level_ok mc k) :
    ∃ k1, e.apply mc k = some k1 ∧ autoscan_level_ok mc k1 := by
  obtain ⟨v, hv⟩ := allegro2bbc_at_some he.1 (by simpa [ALLEGRO_KEY_MAX] using he.2)
  rw [Input.apply_eq]
  by_cases hne : v = 0xaa
  · subst hne
    exact ⟨k, set_key_unmapped mc k _ hv, hk⟩
  · rw [set_key_mapped mc k _ hv hne]
    obtain ⟨b, hb, hiff⟩ :=
      key_update_autoscan mc (store k (vkey_col v) (vkey_row v) e.state) hauto
    exact ⟨_, hb, b, ca2_level_set _ _, hiff⟩

/-- C1: in autoscan mode (IC32 bit 3 set), for every state and every host code
whose table entry is a coordinate (an entry other than 0xaa) with row >= 1 and
column below maxcol, key_down returns and the level last passed to
sysvia_set_ca2 is 1; and after key_clear followed by any sequence of
key_down/key_up events with codes in [0, ALLEGRO_KEY_MAX) in which no code is
left held (the last event of every code is a key_up), the level is 0. -/
theorem autoscan_press_asserts_release_deasserts (mc : Machine)
    (hauto : mc.IC32 &&& 8 ≠ 0) :
    (∀ (k : Keyboard) (code : Int) (v : Nat),
        allegro2bbc_at code = some v → v ≠ 0xaa → 1 ≤ v >>> 4 → v &&& 15 < maxcol mc →
        ∃ k1, key_down mc code k = some k1 ∧ ca2_level k1 = some 1) ∧
    (∀ (k : Keyboard) (evs : List Input),
        (∀ e ∈ evs, 0 ≤ e.code ∧ e.code < (ALLEGRO_KEY_MAX : Int)) →
        (∀ code, held evs code = false) →
        ∃ k1, run mc evs (key_clear k) = some k1 ∧ ca2_level k1 = some 0) := by
  constructor
  · intro k code v hv hne hrow hcol
    have hlt := allegro2bbc_at_lt hv
    have hb8 := (table_mapped_bounds v (allegro2bbc_at_mem hv) hne).1
    unfold key_down
    rw [set_key_mapped mc k 1 hv hne]
    obtain ⟨b, hb, hiff⟩ :=
      key_update_autoscan mc (store k (vkey_col v) (vkey_row v) 1) hauto
    have hbt : b = true := by
      rw [hiff]
      refine ⟨vkey_col v, vkey_row v, ?_, ?_, ?_, ?_⟩
      · rw [vkey_col_val hlt]; exact hcol
      · rw [vkey_row_val hlt]; exact hrow
      · rw [vkey_row_val hlt]; exact hb8
      · simp [store]
    refine ⟨_, hb, ?_⟩
    rw [ca2_level_set, hbt]
    rfl
  · intro k evs hrange hheld
    have h0 : autoscan_level_ok mc (key_clear k) := by
      refine ⟨false, rfl, ?_⟩
      constructor
      · intro h; cases h
      · rintro ⟨c, r, _, _, _, h⟩
        exact absurd (key_clear_bbckey k c r) h
    obtain ⟨k1, hrun, b, hlvl, hiff⟩ :=
      run_invariant mc (autoscan_level_ok mc) evs
        (fun e he k2 hk2 => autoscan_step mc hauto e (hrange e he) k2 hk2) (key_clear k) h0
    refine ⟨k1, hrun, ?_⟩
    have hclear : ∀ c r : Fin 16, k1.bbckey c r = 0 := by
      intro c r
      rw [run_bbckey mc evs _ _ hrun c r, key_clear_bbckey]
      by_contra hne
      obtain ⟨e, _, _, hh⟩ := last_write_held evs c r hne
      rw [hheld e.code] at hh
      cases hh
    have hbf : b = false := by
      cases b with
      | false => rfl
      | true =>
        obtain ⟨c, r, _, _, _, h⟩ := hiff.mp rfl
        exact absurd (hclear c r) h
    rw [hlvl, hbf]
    rfl

set_option maxRecDepth 100000 in
/-- C1 at concrete inputs: on a Master in autoscan mode, key_down of keypad 2
(entry 0x7c: column 12, row 7) asserts the line from the initial state, and the
line is de-asserted after key_clear and the events down A, down B, up A, up B. -/
theorem autoscan_press_asserts_release_deasserts_witness :
    (∃ k1, key_down master_autoscan 39 initial = some k1 ∧ ca2_level k1 = some 1) ∧
    (∃ k1, run master_autoscan [Input.down 1, Input.down 2, Input.up 1, Input.up 2]
        (key_clear initial) = some k1 ∧ ca2_level k1 = some 0) :=
  ⟨(autoscan_press_asserts_release_deasserts master_autoscan (by decide)).1
      initial 39 0x7c rfl (by decide) (by decide) (by decide),
   (autoscan_press_asserts_release_deasserts master_autoscan (by decide)).2
      initial [Input.down 1, Input.down 2, Input.up 1, Input.up 2]
      (by decide) (by
        intro code
        simp only [held, List.foldl, Input.code, Input.is_down]
        split_ifs <;> rfl)⟩

/-- In the scan-specific-key mode two states with the same selected column that
agree on rows 1-15 of that column make `key_update` emit the same level. -/
theorem key_update_column_congr (mc : Machine) (hcol : mc.IC32 &&& 8 = 0)
    (k1 k2 : Keyboard) (hsel : k1.keycol = k2.keycol)
    (hagree : ∀ c r : Fin 16, (c.val : Int) = k1.keycol → 1 ≤ r.val →
      k1.bbckey c r = k2.bbckey c r) :
    (key_update mc k1).bind ca2_level = (key_update mc k2).bind ca2_level ∧
      (0 ≤ k1.keycol → ∃ lvl, (key_update mc k1).bind ca2_level = some lvl) := by
  by_cases hneg : k1.keycol < 0
  · rw [key_update_column_fault mc k1 hcol hneg,
      key_update_column_fault mc k2 hcol (hsel ▸ hneg)]
    exact ⟨rfl, fun h => absurd h (by omega)⟩
  · by_cases hge : (maxcol mc : Int) ≤ k1.keycol
    · rw [key_update_column_unwired mc k1 hcol hge,
        key_update_column_unwired mc k2 hcol (hsel ▸ hge)]
      exact ⟨rfl, fun _ => ⟨0, rfl⟩⟩
    · have hm := maxcol_le mc
      have hn : k1.keycol.toNat < 16 := by omega
      have hc1 : k1.keycol = ((⟨k1.keycol.toNat, hn⟩ : Fin 16).val : Int) := by
        simp
        omega
      have hlt : (⟨k1.keycol.toNat, hn⟩ : Fin 16).val < maxcol mc := by
        simp
        omega
      obtain ⟨b1, hb1, hiff1⟩ := key_update_column mc k1 hcol _ hc1 hlt
      obtain ⟨b2, hb2, hiff2⟩ := key_update_column mc k2 hcol _ (hsel ▸ hc1) hlt
      have hb : b1 = b2 := by
        rw [Bool.eq_iff_iff, hiff1, hiff2]
        constructor
        · rintro ⟨r, h1, h2, h3⟩
          exact ⟨r, h1, h2, by rw [← hagree _ r hc1.symm h1]; exact h3⟩
        · rintro ⟨r, h1, h2, h3⟩
          exact ⟨r, h1, h2, by rw [hagree _ r hc1.symm h1]; exact h3⟩
      rw [hb1, hb2, hb]
      exact ⟨rfl, fun _ => ⟨_, rfl⟩⟩

/-- C2: in the scan-specific-key mode (IC32 bit 3 clear) the level key_update
emits depends only on rows 1-15 of the selected column: two states with the same
keycol (and the same machine, hence the same maxcol) that agree on the cells
(keycol, r), r in 1..15, emit the same level, and a level is emitted whenever
keycol is not negative; and key_down or key_up of a mapped code whose column is
not keycol emits the level key_update emits on the state before the event. -/
theorem column_mode_level_depends_on_selected_column (mc : Machine)
    (hcol : mc.IC32 &&& 8 = 0) :
    (∀ k1 k2 : Keyboard, k1.keycol = k2.keycol →
        (∀ c r : Fin 16, (c.val : Int) = k1.keycol → 1 ≤ r.val →
          k1.bbckey c r = k2.bbckey c r) →
        (key_update mc k1).bind ca2_level = (key_update mc k2).bind ca2_level ∧
        (0 ≤ k1.keycol → ∃ lvl, (key_update mc k1).bind ca2_level = some lvl)) ∧
    (∀ (k : Keyboard) (code : Int) (v : Nat),
        allegro2bbc_at code = some v → v ≠ 0xaa → ((v &&& 15 : Nat) : Int) ≠ k.keycol →
        (key_down mc code k).bind ca2_level = (key_update mc k).bind ca2_level ∧
        (key_up mc code k).bind ca2_level = (key_update mc k).bind ca2_level) := by
  constructor
  · intro k1 k2 hsel hagree
    exact key_update_column_congr mc hcol k1 k2 hsel hagree
  · intro k code v hv hne hother
    have hlt := allegro2bbc_at_lt hv
    have key : ∀ st : Int, (set_key mc code st k).bind ca2_level
        = (key_update mc k).bind ca2_level := by
      intro st
      rw [set_key_mapped mc k st hv hne]
      refine (key_update_column_congr mc hcol (store k (vkey_col v) (vkey_row v) st) k rfl ?_).1
      intro c r hc _
      have hcv : c ≠ vkey_col v := by
        intro h
        apply hother
        rw [← vkey_col_val hlt, ← h]
        exact hc
      simp [store, hcv]
    exact ⟨key 1, key 0⟩

set_option maxRecDepth 100000 in
/-- C2 at concrete inputs: on a Model B with IC32 = 0 and column 0 selected, the
initial matrix and the matrix with cell (3, 2) set emit the same level, and
key_down of E (entry 0x22, column 2) emits the level of the state before. -/
theorem column_mode_level_depends_on_selected_column_witness :
    ((key_update model_b_column initial).bind ca2_level
        = (key_update model_b_column (store initial 3 2 1)).bind ca2_level ∧
      (0 ≤ initial.keycol →
        ∃ lvl, (key_update model_b_column initial).bind ca2_level = some lvl)) ∧
    ((key_down model_b_column 5 initial).bind ca2_level
        = (key_update model_b_column initial).bind ca2_level ∧
      (key_up model_b_column 5 initial).bind ca2_level
        = (key_update model_b_column initial).bind ca2_level) :=
  ⟨(column_mode_level_depends_on_selected_column model_b_column (by decide)).1
      initial (store initial 3 2 1) rfl (by decide),
   (column_mode_level_depends_on_selected_column model_b_column (by decide)).2
      initial 5 0x22 rfl (by decide) (by decide)⟩

/-! ## Point queries -/

theorem int_land_two_pow (m : Int) (j : Nat) :
    Int.land m ((2 ^ j : Nat) : Int) ≠ 0 ↔ m.testBit j = true := by
  constructor
  · intro h
    by_contra hf
    apply h
    cases m with
    | ofNat a =>
      have hb : a.testBit j = false := by simpa [Int.testBit] using hf
      have hz : a &&& 2 ^ j = 0 := Nat.zero_of_testBit_eq_false (fun i => by
        rw [Nat.testBit_and, Nat.testBit_two_pow]
        by_cases hij : j = i
        · subst hij; simp [hb]
        · simp [hij])
      show ((a &&& 2 ^ j : Nat) : Int) = 0
      rw [hz]
      rfl
    | negSucc a =>
      have hb : a.testBit j = true := by simpa [Int.testBit] using hf
      have hz : Nat.ldiff (2 ^ j) a = 0 := Nat.zero_of_testBit_eq_false (fun i => by
        rw [Nat.testBit_ldiff, Nat.testBit_two_pow]
        by_cases hij : j = i
        · subst hij; simp [hb]
        · simp [hij])
      show ((Nat.ldiff (2 ^ j) a : Nat) : Int) = 0
      rw [hz]
      rfl
  · intro h hz
    have h1 := Int.testBit_land m ((2 ^ j : Nat) : Int) j
    rw [hz] at h1
    have h2 : Int.testBit ((2 ^ j : Nat) : Int) j = true := by
      show Nat.testBit (2 ^ j) j = true
      exact Nat.testBit_two_pow_self
    rw [h, h2] at h1
    have h3 : Int.testBit 0 j = false := by
      show Nat.testBit 0 j = false
      simp
    rw [h3] at h1
    cases h1

/-- C3: when the selected row is 0 and the selected column lies in [2, 9],
key_is_down returns true exactly when bit (9 - keycol) of kbdips is set, for
every value of kbdips and whatever the matrix holds (at cell (keycol, 0) or
anywhere else). -/
theorem key_is_down_reads_dip_switches (mc : Machine) (k : Keyboard)
    (hrow : k.keyrow = 0) (h2 : 2 ≤ k.keycol) (h9 : k.keycol ≤ 9)
    (m : Fin 16 → Fin 16 → Int) :
    key_is_down mc { k with bbckey := m }
      = some (mc.kbdips.testBit (9 - k.keycol).toNat) := by
  unfold key_is_down
  have hsel : k.keyrow = 0 ∧ k.keycol ≥ 2 ∧ k.keycol ≤ 9 := ⟨hrow, h2, h9⟩
  simp only [hsel, and_self, if_true]
  have hsh : (9 - k.keycol) = (((9 - k.keycol).toNat : Nat) : Int) := by omega
  rw [hsh, Int.one_shiftLeft]
  simp only [Int.toNat_ofNat]
  congr 1
  rw [Bool.eq_iff_iff, decide_eq_true_iff]
  exact int_land_two_pow _ _

/-- C3 at concrete inputs: with row 0 and column 7 selected, every cell of the
matrix set and kbdips = 4, key_is_down reads bit 2 of kbdips. -/
theorem key_is_down_reads_dip_switches_witness :
    key_is_down { IC32 := 8, MASTER := false, kbdips := 4 }
        { ({ initial with keycol := 7 } : Keyboard) with bbckey := fun _ _ => 1 }
      = some ((4 : Int).testBit (9 - (7 : Int)).toNat) :=
  key_is_down_reads_dip_switches { IC32 := 8, MASTER := false, kbdips := 4 }
    { initial with keycol := 7 } rfl (by decide) (by decide) (fun _ _ => 1)

/-! ## Remapping -/

/-- `key_update` returns unless the scan-specific-key mode meets a negative
selected column. -/
theorem key_update_total (mc : Machine) (k : Keyboard)
    (hsel : mc.IC32 &&& 8 ≠ 0 ∨ 0 ≤ k.keycol) :
    ∃ lvl, key_update mc k = some (sysvia_set_ca2 lvl k) := by
  by_cases hauto : mc.IC32 &&& 8 ≠ 0
  · obtain ⟨b, hb, _⟩ := key_update_autoscan mc k hauto
    exact ⟨_, hb⟩
  · have hcol : mc.IC32 &&& 8 = 0 := by simpa using hauto
    have h0 : 0 ≤ k.keycol := hsel.resolve_left hauto
    by_cases hge : (maxcol mc : Int) ≤ k.keycol
    · exact ⟨0, key_update_column_unwired mc k hcol hge⟩
    · have hm := maxcol_le mc
      have hn : k.keycol.toNat < 16 := by omega
      have hc1 : k.keycol = ((⟨k.keycol.toNat, hn⟩ : Fin 16).val : Int) := by
        simp
        omega
      have hlt : (⟨k.keycol.toNat, hn⟩ : Fin 16).val < maxcol mc := by
        simp
        omega
      obtain ⟨b, hb, _⟩ := key_update_column mc k hcol _ hc1 hlt
      exact ⟨_, hb⟩

/-- What `set_key` does for a mapped code: it stores `st` into the cell of the
table entry and emits one level. -/
theorem set_key_effect (mc : Machine) (k : Keyboard) {code : Int} {v : Nat} (st : Int)
    (hv : allegro2bbc_at code = some v) (hne : v ≠ 0xaa) :
    (∀ k1, set_key mc code st k = some k1 →
      ∃ lvl, k1 = sysvia_set_ca2 lvl (store k (vkey_col v) (vkey_row v) st)) ∧
    (mc.IC32 &&& 8 ≠ 0 ∨ 0 ≤ k.keycol → ∃ k1, set_key mc code st k = some k1) := by
  rw [set_key_mapped mc k st hv hne]
  constructor
  · intro k1 h
    exact key_update_eq h
  · intro hsel
    obtain ⟨lvl, h⟩ := key_update_total mc (store k (vkey_col v) (vkey_row v) st) hsel
    exact ⟨_, h⟩

theorem keylookup_at_identity (k : Keyboard)
    (hid : ∀ i : Fin 227, k.keylookup i = (i.val : Int)) (n : Nat) (hn : n < 227) :
    keylookup_at k (n : Int) = some (n : Int) := by
  unfold keylookup_at
  rw [index_of_nat 227 n hn]
  simp [hid]

set_option maxRecDepth 100000 in
/-- C4: with keyas set and keylookup the identity, key_map sends an event
carrying ALLEGRO_KEY_A to ALLEGRO_KEY_CAPSLOCK, so key_down(key_map(e)) is
key_down(ALLEGRO_KEY_CAPSLOCK) on every state; whenever that call returns, cell
(column 0, row 4) holds 1 and the native cell of A (column 1, row 4), like every
other cell, is unchanged; and the call returns unless the scan-specific-key mode
meets a negative selected column. -/
theorem key_a_aliases_capslock (mc : Machine) (k : Keyboard) (e : KeyboardEvent)
    (hkeyas : k.keyas = true) (hid : ∀ i : Fin 227, k.keylookup i = (i.val : Int))
    (he : e.keycode = ALLEGRO_KEY_A) :
    key_map k e = some ALLEGRO_KEY_CAPSLOCK ∧
    (key_map k e).bind (fun c => key_down mc c k) = key_down mc ALLEGRO_KEY_CAPSLOCK k ∧
    (∀ k1, (key_map k e).bind (fun c => key_down mc c k) = some k1 →
      k1.bbckey 0 4 = 1 ∧ k1.bbckey 1 4 = k.bbckey 1 4 ∧
      ∀ c r : Fin 16, ¬ (c = 0 ∧ r = 4) → k1.bbckey c r = k.bbckey c r) ∧
    (mc.IC32 &&& 8 ≠ 0 ∨ 0 ≤ k.keycol →
      ∃ k1, (key_map k e).bind (fun c => key_down mc c k) = some k1) := by
  have hmap : key_map k e = some ALLEGRO_KEY_CAPSLOCK := by
    unfold key_map
    simp only [he, hkeyas, ALLEGRO_KEY_A, ALLEGRO_KEY_MAX, ALLEGRO_KEY_CAPSLOCK]
    exact keylookup_at_identity k hid 226 (by omega)
  have hv : allegro2bbc_at ALLEGRO_KEY_CAPSLOCK = some 0x40 := rfl
  have heff := set_key_effect mc k 1 hv (by decide)
  refine ⟨hmap, by rw [hmap]; rfl, ?_, ?_⟩
  · intro k1 h1
    rw [hmap] at h1
    obtain ⟨lvl, hk1⟩ := heff.1 k1 h1
    rw [hk1]
    refine ⟨rfl, rfl, ?_⟩
    intro c r hcr
    have hcr2 : ¬ (c = vkey_col 0x40 ∧ r = vkey_row 0x40) := hcr
    simp [store, sysvia_set_ca2, hcr2]
  · intro hsel
    rw [hmap]
    exact heff.2 hsel

/-- C4 at concrete inputs: a Model B in autoscan mode, the initial state with
keyas set and the identity table, and an event for A without modifiers. -/
theorem key_a_aliases_capslock_witness :
    key_map { with_identity_lookup initial with keyas := true }
        { keycode := ALLEGRO_KEY_A, unichar := 97, modifiers := 0 }
      = some ALLEGRO_KEY_CAPSLOCK :=
  (key_a_aliases_capslock model_b_autoscan { with_identity_lookup initial with keyas := true }
    { keycode := ALLEGRO_KEY_A, unichar := 97, modifiers := 0 } rfl (fun _ => rfl) rfl).1

set_option maxRecDepth 100000 in
/-- C5: with keypad set and keylookup the identity, for an event carrying
ALLEGRO_KEY_PAD_2 on every state: when the modifiers do not contain
ALLEGRO_KEYMOD_NUMLOCK, key_down(key_map(e)) is key_down(ALLEGRO_KEY_DOWN), which
stores 1 into cell (column 9, row 2) and leaves the keypad-2 cell (column 12,
row 7) as it was; when they contain it, key_down(key_map(e)) stores 1 into cell
(column 12, row 7) and leaves the Down cell as it was; the call returns unless
the scan-specific-key mode meets a negative selected column. -/
theorem keypad_two_follows_numlock (mc : Machine) (k : Keyboard) (e : KeyboardEvent)
    (hkeypad : k.keypad = true) (hid : ∀ i : Fin 227, k.keylookup i = (i.val : Int))
    (he : e.keycode = ALLEGRO_KEY_PAD_2) :
    (e.modifiers &&& ALLEGRO_KEYMOD_NUMLOCK = 0 →
      key_map k e = some ALLEGRO_KEY_DOWN ∧
      (key_map k e).bind (fun c => key_down mc c k) = key_down mc ALLEGRO_KEY_DOWN k ∧
      ∀ k1, (key_map k e).bind (fun c => key_down mc c k) = some k1 →
        k1.bbckey 9 2 = 1 ∧ k1.bbckey 12 7 = k.bbckey 12 7) ∧
    (e.modifiers &&& ALLEGRO_KEYMOD_NUMLOCK ≠ 0 →
      key_map k e = some ALLEGRO_KEY_PAD_2 ∧
      ∀ k1, (key_map k e).bind (fun c => key_down mc c k) = some k1 →
        k1.bbckey 12 7 = 1 ∧ k1.bbckey 9 2 = k.bbckey 9 2) ∧
    (mc.IC32 &&& 8 ≠ 0 ∨ 0 ≤ k.keycol →
      ∃ k1, (key_map k e).bind (fun c => key_down mc c k) = some k1) := by
  have hdown : allegro2bbc_at ALLEGRO_KEY_DOWN = some 0x29 := rfl
  have hpad : allegro2bbc_at ALLEGRO_KEY_PAD_2 = some 0x7c := rfl
  have hmap0 : e.modifiers &&& ALLEGRO_KEYMOD_NUMLOCK = 0 →
      key_map k e = some ALLEGRO_KEY_DOWN := by
    intro hmod
    unfold key_map
    simp only [he, hkeypad, hmod, ALLEGRO_KEY_A, ALLEGRO_KEY_MAX, ALLEGRO_KEY_PAD_2,
      ALLEGRO_KEY_PAD_0, ALLEGRO_KEY_PAD_9]
    exact keylookup_at_identity k hid 85 (by omega)
  have hmap1 : e.modifiers &&& ALLEGRO_KEYMOD_NUMLOCK ≠ 0 →
      key_map k e = some ALLEGRO_KEY_PAD_2 := by
    intro hmod
    unfold key_map
    simp only [he, hkeypad, hmod, ALLEGRO_KEY_A, ALLEGRO_KEY_MAX, ALLEGRO_KEY_PAD_2,
      ALLEGRO_KEY_PAD_0, ALLEGRO_KEY_PAD_9, ne_eq, not_false_eq_true, not_true_eq_false,
      and_false, if_false]
    exact keylookup_at_identity k hid 39 (by omega)
  have heff0 := set_key_effect mc k 1 hdown (by decide)
  have heff1 := set_key_effect mc k 1 hpad (by decide)
  refine ⟨?_, ?_, ?_⟩
  · intro hmod
    refine ⟨hmap0 hmod, by rw [hmap0 hmod]; rfl, ?_⟩
    intro k1 h1
    rw [hmap0 hmod] at h1
    obtain ⟨lvl, hk1⟩ := heff0.1 k1 h1
    rw [hk1]
    exact ⟨rfl, rfl⟩
  · intro hmod
    refine ⟨hmap1 hmod, ?_⟩
    intro k1 h1
    rw [hmap1 hmod] at h1
    obtain ⟨lvl, hk1⟩ := heff1.1 k1 h1
    rw [hk1]
    exact ⟨rfl, rfl⟩
  · intro hsel
    by_cases hmod : e.modifiers &&& ALLEGRO_KEYMOD_NUMLOCK = 0
    · rw [hmap0 hmod]
      exact heff0.2 hsel
    · rw [hmap1 hmod]
      exact heff1.2 hsel

/-- C5 at concrete inputs: a Master in autoscan mode, the initial state with
keypad set and the identity table; keypad 2 without modifiers is sent to Down,
and with Num Lock active it stays keypad 2. -/
theorem keypad_two_follows_numlock_witness :
    key_map { with_identity_lookup initial with keypad := true }
        { keycode := ALLEGRO_KEY_PAD_2, unichar := 0, modifiers := 0 }
      = some ALLEGRO_KEY_DOWN ∧
    key_map { with_identity_lookup initial with keypad := true }
        { keycode := ALLEGRO_KEY_PAD_2, unichar := 50, modifiers := ALLEGRO_KEYMOD_NUMLOCK }
      = some ALLEGRO_KEY_PAD_2 :=
  ⟨((keypad_two_follows_numlock master_autoscan
      { with_identity_lookup initial with keypad := true }
      { keycode := ALLEGRO_KEY_PAD_2, unichar := 0, modifiers := 0 }
      rfl (fun _ => rfl) rfl).1 (by decide)).1,
   ((keypad_two_follows_numlock master_autoscan
      { with_identity_lookup initial with keypad := true }
      { keycode := ALLEGRO_KEY_PAD_2, unichar := 50, modifiers := ALLEGRO_KEYMOD_NUMLOCK }
      rfl (fun _ => rfl) rfl).2.1 (by decide)).1⟩

/-! ## The any-key query -/

theorem key_any_down_iff (k : Keyboard) :
    ∃ b, key_any_down k = some b ∧
      (b = true ↔ ∃ c r : Fin 16, 1 ≤ r.val ∧ k.bbckey c r ≠ 0) := by
  obtain ⟨b, hb, hiff⟩ := scan_cols_loop k 1 15 (by omega) 16 0 (by omega)
  refine ⟨b, by unfold key_any_down; exact_mod_cast hb, ?_⟩
  rw [hiff]
  constructor
  · rintro ⟨c, r, _, _, h3, _, h5⟩
    exact ⟨c, r, h3, h5⟩
  · rintro ⟨c, r, h3, h5⟩
    exact ⟨c, r, by omega, by omega, h3, by omega, h5⟩

theorem key_any_down_eq_false (k : Keyboard)
    (h : ∀ c r : Fin 16, 1 ≤ r.val → k.bbckey c r = 0) : key_any_down k = some false := by
  obtain ⟨b, hb, hiff⟩ := key_any_down_iff k
  cases b with
  | false => exact hb
  | true =>
    obtain ⟨c, r, h1, h2⟩ := hiff.mp rfl
    exact absurd (h c r h1) h2

theorem key_any_down_eq_true (k : Keyboard) (c r : Fin 16) (h1 : 1 ≤ r.val)
    (h : k.bbckey c r ≠ 0) : key_any_down k = some true := by
  obtain ⟨b, hb, hiff⟩ := key_any_down_iff k
  have : b = true := hiff.mpr ⟨c, r, h1, h⟩
  rw [hb, this]

theorem key_any_down_key_clear (k : Keyboard) : key_any_down (key_clear k) = some false := by
  apply key_any_down_eq_false
  intro c r _
  exact key_clear_bbckey k c r

set_option maxRecDepth 100000 in
/-- C6 fails as stated: Left Shift (code 215) has the defined mapping 0x00
(column 0, row 0), and after key_clear followed by key_down(215) key_any_down
returns false. -/
theorem key_any_down_false_after_shift :
    allegro2bbc_at 215 = some 0x00 ∧ (0x00 : Nat) ≠ 0xaa ∧
    (key_down model_b_autoscan 215 (key_clear initial)).bind key_any_down = some false := by
  refine ⟨rfl, by decide, ?_⟩
  obtain ⟨k1, hk1⟩ := (set_key_effect model_b_autoscan (key_clear initial) 1
    (show allegro2bbc_at 215 = some 0x00 from rfl) (by decide)).2 (Or.inl (by decide))
  obtain ⟨lvl, hlvl⟩ := (set_key_effect model_b_autoscan (key_clear initial) 1
    (show allegro2bbc_at 215 = some 0x00 from rfl) (by decide)).1 k1 hk1
  unfold key_down
  rw [hk1]
  show key_any_down k1 = some false
  apply key_any_down_eq_false
  intro c r hr
  rw [hlvl]
  have hr0 : r ≠ vkey_row 0x00 := by
    intro h
    rw [h] at hr
    exact absurd hr (by decide)
  simp [sysvia_set_ca2, store, key_clear_bbckey, hr0]

/-- C6, amended: key_any_down returns false after key_clear; for a code with a
defined mapping, after key_clear followed by key_down(c) it returns true exactly
when the row of the mapping (the high nibble of allegro2bbc[c]) is at least 1,
and after the subsequent key_up(c) it returns false. The calls return unless the
scan-specific-key mode meets a negative selected column. -/
theorem key_any_down_after_single_key (mc : Machine) (k : Keyboard) :
    key_any_down (key_clear k) = some false ∧
    ∀ (code : Int) (v : Nat), allegro2bbc_at code = some v → v ≠ 0xaa →
      (mc.IC32 &&& 8 ≠ 0 ∨ 0 ≤ k.keycol) →
      (key_down mc code (key_clear k)).bind key_any_down = some (decide (1 ≤ v >>> 4)) ∧
      ((key_down mc code (key_clear k)).bind (key_up mc code)).bind key_any_down
        = some false := by
  constructor
  · exact key_any_down_key_clear k
  · intro code v hv hne hsel
    have hlt := allegro2bbc_at_lt hv
    have heff := set_key_effect mc (key_clear k) 1 hv hne
    have hsel0 : mc.IC32 &&& 8 ≠ 0 ∨ 0 ≤ (key_clear k).keycol := by
      rw [key_clear_keycol]
      exact hsel
    obtain ⟨k1, hk1⟩ := heff.2 hsel0
    obtain ⟨lvl, hlvl⟩ := heff.1 k1 hk1
    have heff2 := set_key_effect mc k1 0 hv hne
    have hsel1 : mc.IC32 &&& 8 ≠ 0 ∨ 0 ≤ k1.keycol := by
      rw [hlvl, sysvia_set_ca2_keycol, store_keycol]
      exact hsel0
    obtain ⟨k2, hk2⟩ := heff2.2 hsel1
    obtain ⟨lvl2, hlvl2⟩ := heff2.1 k2 hk2
    unfold key_down key_up
    rw [hk1]
    constructor
    · show key_any_down k1 = some (decide (1 ≤ v >>> 4))
      by_cases hrow : 1 ≤ v >>> 4
      · rw [decide_eq_true hrow]
        apply key_any_down_eq_true k1 (vkey_col v) (vkey_row v)
        · rw [vkey_row_val hlt]
          exact hrow
        · rw [hlvl]
          simp [sysvia_set_ca2, store]
      · rw [decide_eq_false hrow]
        apply key_any_down_eq_false
        intro c r hr
        have hr0 : r ≠ vkey_row v := by
          intro h
          rw [h, vkey_row_val hlt] at hr
          exact hrow hr
        rw [hlvl]
        simp [sysvia_set_ca2, store, key_clear_bbckey, hr0]
    · show (set_key mc code 0 k1).bind key_any_down = some false
      rw [hk2]
      show key_any_down k2 = some false
      apply key_any_down_eq_false
      intro c r _
      rw [hlvl2, hlvl]
      simp only [sysvia_set_ca2, store, key_clear_bbckey]
      split_ifs <;> rfl

set_option maxRecDepth 100000 in
/-- C6 amended, at concrete inputs: from the initial state on a Model B in
autoscan mode, key_down of A (entry 0x41, row 4) makes key_any_down true and the
following key_up makes it false. -/
theorem key_any_down_after_single_key_witness :
    (key_down model_b_autoscan 1 (key_clear initial)).bind key_any_down
        = some (decide (1 ≤ 0x41 >>> 4)) ∧
    ((key_down model_b_autoscan 1 (key_clear initial)).bind
        (key_up model_b_autoscan 1)).bind key_any_down = some false :=
  (key_any_down_after_single_key model_b_autoscan initial).2 1 0x41 rfl (by decide)
    (Or.inl (by decide))

/-! ## Unmapped codes and the round trip -/

/-- C7: for every state and every host code in [0, ALLEGRO_KEY_MAX) whose table
entry is 0xaa, key_down and key_up return the state unchanged: every cell, the
selection and the record of sysvia_set_ca2 calls (no call is made); hence after
key_clear followed by key_down(c), key_any_down still returns false. -/
theorem unmapped_code_changes_nothing (mc : Machine) (k : Keyboard) (code : Int)
    (h : allegro2bbc_at code = some 0xaa) :
    key_down mc code k = some k ∧ key_up mc code k = some k ∧
    (key_down mc code (key_clear k)).bind key_any_down = some false := by
  refine ⟨set_key_unmapped mc k 1 h, set_key_unmapped mc k 0 h, ?_⟩
  have h1 : key_down mc code (key_clear k) = some (key_clear k) :=
    set_key_unmapped mc (key_clear k) 1 h
  rw [h1, Option.some_bind]
  exact key_any_down_key_clear k

set_option maxRecDepth 100000 in
/-- C7 at a concrete input: F12 (code 58) has entry 0xaa. -/
theorem unmapped_code_changes_nothing_witness :
    key_down model_b_autoscan 58 initial = some initial ∧
    key_up model_b_autoscan 58 initial = some initial ∧
    (key_down model_b_autoscan 58 (key_clear initial)).bind key_any_down = some false :=
  unmapped_code_changes_nothing model_b_autoscan initial 58 rfl

set_option maxRecDepth 100000 in
/-- C8 fails as stated: with Delete (code 77, entry 0x59) held, key_down then
key_up of Backspace (code 63, the same entry 0x59) leaves cell (column 9, row 5)
clear, although it was set before the key_down. -/
theorem round_trip_clears_held_cell :
    allegro2bbc_at 63 = some 0x59 ∧
    (run model_b_autoscan [Input.down 77] (key_clear initial)).map
        (fun k => k.bbckey 9 5) = some 1 ∧
    (((run model_b_autoscan [Input.down 77] (key_clear initial)).bind
        (key_down model_b_autoscan 63)).bind (key_up model_b_autoscan 63)).map
        (fun k => k.bbckey 9 5) = some 0 := by
  decide

/-- C8, amended: for a code with a defined mapping, key_down(c) followed
immediately by key_up(c) leaves the cell of c clear and every other cell as it
was; so the matrix is equal, cell for cell, to the matrix before the key_down
whenever the cell of c was clear before. The calls return unless the
scan-specific-key mode meets a negative selected column. -/
theorem key_down_up_round_trip (mc : Machine) (k : Keyboard) (code : Int) (v : Nat)
    (hv : allegro2bbc_at code = some v) (hne : v ≠ 0xaa)
    (hsel : mc.IC32 &&& 8 ≠ 0 ∨ 0 ≤ k.keycol) :
    ∃ k1 k2, key_down mc code k = some k1 ∧ key_up mc code k1 = some k2 ∧
      (∀ c r : Fin 16, k2.bbckey c r
        = if c = vkey_col v ∧ r = vkey_row v then 0 else k.bbckey c r) ∧
      (k.bbckey (vkey_col v) (vkey_row v) = 0 → ∀ c r : Fin 16, k2.bbckey c r = k.bbckey c r) := by
  have heff := set_key_effect mc k 1 hv hne
  obtain ⟨k1, hk1⟩ := heff.2 hsel
  obtain ⟨lvl, hlvl⟩ := heff.1 k1 hk1
  have heff2 := set_key_effect mc k1 0 hv hne
  have hsel1 : mc.IC32 &&& 8 ≠ 0 ∨ 0 ≤ k1.keycol := by
    rw [hlvl]
    exact hsel
  obtain ⟨k2, hk2⟩ := heff2.2 hsel1
  obtain ⟨lvl2, hlvl2⟩ := heff2.1 k2 hk2
  have hcells : ∀ c r : Fin 16, k2.bbckey c r
      = if c = vkey_col v ∧ r = vkey_row v then 0 else k.bbckey c r := by
    intro c r
    rw [hlvl2, hlvl]
    simp only [sysvia_set_ca2, store]
    split_ifs <;> rfl
  refine ⟨k1, k2, hk1, hk2, hcells, ?_⟩
  intro h0 c r
  rw [hcells c r]
  split_ifs with h
  · rw [h.1, h.2, h0]
  · rfl

set_option maxRecDepth 100000 in
/-- C8 amended, at concrete inputs: key_down then key_up of A (entry 0x41) from
the initial state on a Model B in autoscan mode. -/
theorem key_down_up_round_trip_witness :
    ∃ k1 k2, key_down model_b_autoscan 1 initial = some k1 ∧
      key_up model_b_autoscan 1 k1 = some k2 ∧
      (∀ c r : Fin 16, k2.bbckey c r
        = if c = vkey_col 0x41 ∧ r = vkey_row 0x41 then 0 else initial.bbckey c r) ∧
      (initial.bbckey (vkey_col 0x41) (vkey_row 0x41) = 0 →
        ∀ c r : Fin 16, k2.bbckey c r = initial.bbckey c r) :=
  key_down_up_round_trip model_b_autoscan initial 1 0x41 rfl (by decide)
    (Or.inl (by decide))

/-! ## Sequences of events -/

theorem Input.state_is_down (e : Input) : e.state ≠ 0 ↔ e.is_down = true := by
  cases e
  · simp [Input.state, Input.is_down]
  · simp [Input.state, Input.is_down]

/-- When every event that hits the cell carries the code `code`, and `code` maps
to the cell, the cell is set exactly when `code` is held. -/
theorem last_write_single_owner (evs : List Input) (c r : Fin 16) (code : Int)
    (hmaps : maps_to code c r = true) :
    (∀ e ∈ evs, e.hits c r = true → e.code = code) →
      (last_write evs c r 0 ≠ 0 ↔ held evs code = true) := by
  induction evs using List.reverseRecOn with
  | nil =>
    intro _
    simp [last_write, held]
  | append_singleton es e ih =>
    intro hown
    have ih1 := ih (fun e1 he1 => hown e1 (by simp [he1]))
    rw [last_write_append, held_append]
    by_cases hh : e.hits c r = true
    · have hc : e.code = code := hown e (by simp) hh
      rw [if_pos hh, if_pos hc]
      exact Input.state_is_down e
    · have hc : e.code ≠ code := by
        intro heq
        apply hh
        unfold Input.hits
        rw [heq]
        exact hmaps
      rw [if_neg hh, if_neg hc]
      exact ih1

theorem set_key_total (mc : Machine) (k : Keyboard) (code st : Int)
    (h0 : 0 ≤ code) (h1 : code < (ALLEGRO_KEY_MAX : Int))
    (hsel : mc.IC32 &&& 8 ≠ 0 ∨ 0 ≤ k.keycol) :
    ∃ k1, set_key mc code st k = some k1 ∧ k1.keycol = k.keycol := by
  obtain ⟨v, hv⟩ := allegro2bbc_at_some h0 (by simpa [ALLEGRO_KEY_MAX] using h1)
  by_cases hne : v = 0xaa
  · subst hne
    exact ⟨k, set_key_unmapped mc k st hv, rfl⟩
  · obtain ⟨k1, hk1⟩ := (set_key_effect mc k st hv hne).2 hsel
    obtain ⟨lvl, hlvl⟩ := (set_key_effect mc k st hv hne).1 k1 hk1
    exact ⟨k1, hk1, by rw [hlvl]; rfl⟩

/-- A sequence of events with codes in range runs to its end, unless the
scan-specific-key mode meets a negative selected column. -/
theorem run_total (mc : Machine) (evs : List Input)
    (hrange : ∀ e ∈ evs, 0 ≤ e.code ∧ e.code < (ALLEGRO_KEY_MAX : Int)) (k : Keyboard)
    (hsel : mc.IC32 &&& 8 ≠ 0 ∨ 0 ≤ k.keycol) :
    ∃ k1, run mc evs k = some k1 := by
  obtain ⟨k1, h1, _⟩ := run_invariant mc (fun k2 => mc.IC32 &&& 8 ≠ 0 ∨ 0 ≤ k2.keycol) evs
    (fun e he k2 hk2 => by
      obtain ⟨k3, h3, hcol⟩ := set_key_total mc k2 e.code e.state (hrange e he).1
        (hrange e he).2 hk2
      refine ⟨k3, by rw [Input.apply_eq]; exact h3, ?_⟩
      show mc.IC32 &&& 8 ≠ 0 ∨ 0 ≤ k3.keycol
      rw [hcol]
      exact hk2) k hsel
  exact ⟨k1, h1⟩

set_option maxRecDepth 100000 in
/-- C9 fails as stated: after key_clear and the events down Left Shift (215),
down Right Shift (216), up Right Shift, the code 215 is held and maps to cell
(column 0, row 0), and that cell is clear. -/
theorem alias_release_clears_held_cell :
    held [Input.down 215, Input.down 216, Input.up 216] 215 = true ∧
    maps_to 215 0 0 = true ∧ maps_to 216 0 0 = true ∧
    (run model_b_autoscan [Input.down 215, Input.down 216] (key_clear initial)).map
        (fun k => k.bbckey 0 0) = some 1 ∧
    (run model_b_autoscan [Input.down 215, Input.down 216, Input.up 216]
        (key_clear initial)).map (fun k => k.bbckey 0 0) = some 0 := by
  decide

/-- C9, amended: in every state reached from key_clear by key_down/key_up events
with codes in [0, ALLEGRO_KEY_MAX), each cell holds the value written by the most
recent event whose code maps to it (0 when there is none); a cell that is pressed
has at least one host code mapping to it that is held; and a cell is pressed
exactly when the code is held if all the events that hit the cell carry that one
code. The sequence runs to its end unless the scan-specific-key mode meets a
negative selected column. -/
theorem cell_reflects_last_event (mc : Machine) (k : Keyboard) (evs : List Input)
    (hrange : ∀ e ∈ evs, 0 ≤ e.code ∧ e.code < (ALLEGRO_KEY_MAX : Int))
    (hsel : mc.IC32 &&& 8 ≠ 0 ∨ 0 ≤ k.keycol) :
    ∃ k1, run mc evs (key_clear k) = some k1 ∧
      ∀ c r : Fin 16,
        k1.bbckey c r = last_write evs c r 0 ∧
        (k1.bbckey c r ≠ 0 → ∃ code, maps_to code c r = true ∧ held evs code = true) ∧
        (∀ code, maps_to code c r = true →
          (∀ e ∈ evs, e.hits c r = true → e.code = code) →
          (k1.bbckey c r ≠ 0 ↔ held evs code = true)) := by
  have hsel0 : mc.IC32 &&& 8 ≠ 0 ∨ 0 ≤ (key_clear k).keycol := by
    rw [key_clear_keycol]
    exact hsel
  obtain ⟨k1, hrun⟩ := run_total mc evs hrange (key_clear k) hsel0
  refine ⟨k1, hrun, ?_⟩
  intro c r
  have hcell : k1.bbckey c r = last_write evs c r 0 := by
    rw [run_bbckey mc evs _ _ hrun c r, key_clear_bbckey]
  refine ⟨hcell, ?_, ?_⟩
  · intro hne
    rw [hcell] at hne
    obtain ⟨e, _, hhit, hheld⟩ := last_write_held evs c r hne
    exact ⟨e.code, hhit, hheld⟩
  · intro code hmaps hown
    rw [hcell]
    exact last_write_single_owner evs c r code hmaps hown

/-- C9 amended, at concrete inputs: the events down A, down Left Shift, up A
after key_clear on a Model B in autoscan mode. -/
theorem cell_reflects_last_event_witness :
    ∃ k1, run model_b_autoscan [Input.down 1, Input.down 215, Input.up 1]
        (key_clear initial) = some k1 ∧
      ∀ c r : Fin 16,
        k1.bbckey c r = last_write [Input.down 1, Input.down 215, Input.up 1] c r 0 ∧
        (k1.bbckey c r ≠ 0 → ∃ code, maps_to code c r = true ∧
          held [Input.down 1, Input.down 215, Input.up 1] code = true) ∧
        (∀ code, maps_to code c r = true →
          (∀ e ∈ [Input.down 1, Input.down 215, Input.up 1],
            e.hits c r = true → e.code = code) →
          (k1.bbckey c r ≠ 0 ↔
            held [Input.down 1, Input.down 215, Input.up 1] code = true)) :=
  cell_reflects_last_event model_b_autoscan initial
    [Input.down 1, Input.down 215, Input.up 1] (by decide) (Or.inl (by decide))

/-! ## Codes that share a cell -/

set_option maxRecDepth 1000000 in
set_option maxHeartbeats 4000000 in
theorem table_pairs :
    ∀ p ∈ mapped_entries, ∀ q ∈ mapped_entries,
      p.2 = q.2 → p.1 ≠ q.1 →
      ∃ g ∈ shared_entries, g.1 = p.2 ∧ (p.1 : Int) ∈ g.2 ∧ (q.1 : Int) ∈ g.2 := by
  decide

set_option maxRecDepth 1000000 in
theorem shared_entries_table :
    ∀ g ∈ shared_entries, ∀ c ∈ g.2, allegro2bbc_at c = some g.1 ∧ g.1 ≠ 0xaa := by
  decide

theorem mem_mapped_entries {code : Int} {v : Nat} (h : allegro2bbc_at code = some v)
    (hne : v ≠ 0xaa) : (code.toNat, v) ∈ mapped_entries := by
  unfold allegro2bbc_at at h
  split at h
  · unfold mapped_entries
    rw [List.mem_filter]
    refine ⟨List.mk_mem_enum_iff_getElem?.mpr h, ?_⟩
    simpa using hne
  · simp at h

set_option maxRecDepth 100000 in
/-- C10 fails as stated: Backspace (code 63) and Delete (code 77) are distinct
codes with the same entry 0x59, which is not 0xaa. -/
theorem backspace_and_delete_share_a_cell :
    allegro2bbc_at 63 = some 0x59 ∧ allegro2bbc_at 77 = some 0x59 ∧
    (63 : Int) ≠ 77 ∧ (0x59 : Nat) ≠ 0xaa := by
  decide

/-- C10, amended: the table is injective on mapped codes outside eight shared
cells: two distinct host codes with the same entry other than 0xaa both belong
to one group of shared_entries (0x00: 99, 100, 215, 216; 0x01: 101, 217, 218;
0x28: 57, 60; 0x4c: 81, 92, 94; 0x50: 103, 107; 0x57: 68, 105; 0x59: 63, 77, 90;
0x71: 48, 225), and every code of a group does carry the entry of the group. -/
theorem table_injective_outside_shared_entries :
    (∀ (c1 c2 : Int) (v : Nat), allegro2bbc_at c1 = some v → allegro2bbc_at c2 = some v →
      v ≠ 0xaa → c1 ≠ c2 →
      ∃ g ∈ shared_entries, g.1 = v ∧ c1 ∈ g.2 ∧ c2 ∈ g.2) ∧
    (∀ g ∈ shared_entries, ∀ c ∈ g.2, allegro2bbc_at c = some g.1 ∧ g.1 ≠ 0xaa) := by
  refine ⟨?_, shared_entries_table⟩
  intro c1 c2 v h1 h2 hne hdiff
  have hr1 := allegro2bbc_at_range h1
  have hr2 := allegro2bbc_at_range h2
  have hn : c1.toNat ≠ c2.toNat := by omega
  obtain ⟨g, hg, hgv, hg1, hg2⟩ := table_pairs _ (mem_mapped_entries h1 hne) _
    (mem_mapped_entries h2 hne) rfl hn
  refine ⟨g, hg, hgv, ?_, ?_⟩
  · have : ((c1.toNat : Nat) : Int) = c1 := by omega
    rw [← this]
    exact hg1
  · have : ((c2.toNat : Nat) : Int) = c2 := by omega
    rw [← this]
    exact hg2

set_option maxRecDepth 100000 in
/-- C10 amended, at concrete inputs: Backspace and Delete lie in one group. -/
theorem table_injective_outside_shared_entries_witness :
    ∃ g ∈ shared_entries, g.1 = 0x59 ∧ (63 : Int) ∈ g.2 ∧ (77 : Int) ∈ g.2 :=
  table_injective_outside_shared_entries.1 63 77 0x59 rfl rfl (by decide) (by decide)

/-! ## The level emitted in autoscan mode -/

/-- In autoscan mode `key_update` emits a level, 0 or 1, that is 1 exactly when
some cell of rows 1-7 in the wired columns is set; hence, for a matrix whose rows
8-15 are clear, exactly when some cell of rows 1-15 in the wired columns is set. -/
theorem autoscan_level_rows_one_to_seven (mc : Machine) (k : Keyboard)
    (hauto : mc.IC32 &&& 8 ≠ 0) :
    (maxcol mc = if mc.MASTER = true then 13 else 10) ∧
    ∃ lvl, key_level mc k = some lvl ∧ (lvl = 1 ∨ lvl = 0) ∧
      (lvl = 1 ↔ ∃ c r : Fin 16, c.val < maxcol mc ∧ 1 ≤ r.val ∧ r.val ≤ 7 ∧
        k.bbckey c r ≠ 0) ∧
      ((∀ c r : Fin 16, 8 ≤ r.val → k.bbckey c r = 0) →
        (lvl = 1 ↔ ∃ c r : Fin 16, c.val < maxcol mc ∧ 1 ≤ r.val ∧ k.bbckey c r ≠ 0)) := by
  refine ⟨rfl, ?_⟩
  obtain ⟨b, hb, hiff⟩ := key_update_autoscan mc k hauto
  have hlvl : key_level mc k = some (if b = true then 1 else 0) := by
    unfold key_level
    rw [hb]
    rfl
  have hb1 : (if b = true then (1 : Int) else 0) = 1 ↔ b = true := by
    cases b <;> simp
  refine ⟨_, hlvl, ?_, ?_, ?_⟩
  · cases b
    · exact Or.inr rfl
    · exact Or.inl rfl
  · rw [hb1, hiff]
    constructor
    · rintro ⟨c, r, h1, h2, h3, h4⟩
      exact ⟨c, r, h1, h2, by omega, h4⟩
    · rintro ⟨c, r, h1, h2, h3, h4⟩
      exact ⟨c, r, h1, h2, by omega, h4⟩
  · intro hhigh
    rw [hb1, hiff]
    constructor
    · rintro ⟨c, r, h1, h2, _, h4⟩
      exact ⟨c, r, h1, h2, h4⟩
    · rintro ⟨c, r, h1, h2, h4⟩
      refine ⟨c, r, h1, h2, ?_, h4⟩
      by_contra hge
      exact h4 (hhigh c r (by omega))

/-! ## Reset -/

/-- C12: for every prior state, key_clear leaves every one of the 256 cells of
the matrix at 0, passes level 0 to sysvia_set_ca2 (one call), and leaves keycol,
keyrow, keyas, keypad and keylookup unchanged. -/
theorem key_clear_resets_matrix_and_level (k : Keyboard) :
    (∀ c r : Fin 16, (key_clear k).bbckey c r = 0) ∧
    ca2_level (key_clear k) = some 0 ∧
    (key_clear k).ca2 = 0 :: k.ca2 ∧
    (key_clear k).keycol = k.keycol ∧
    (key_clear k).keyrow = k.keyrow ∧
    (key_clear k).keyas = k.keyas ∧
    (key_clear k).keypad = k.keypad ∧
    (key_clear k).keylookup = k.keylookup := by
  refine ⟨key_clear_bbckey k, ?_⟩
  rw [key_clear_eq]
  exact ⟨rfl, rfl, rfl, rfl, rfl, rfl, rfl⟩

/-! ## The keypad substitution -/

theorem map_keypad_at_nat (i : Nat) : map_keypad_at (i : Int) = map_keypad[i]? := by
  unfold map_keypad_at
  simp

/-- The branch of `key_map` taken by a keypad digit when the substitution
applies. -/
theorem key_map_keypad_on (k : Keyboard) (e : KeyboardEvent)
    (hid : ∀ i : Fin 227, k.keylookup i = (i.val : Int))
    (hkeypad : k.keypad = true) (hmod : e.modifiers &&& ALLEGRO_KEYMOD_NUMLOCK = 0)
    (n m : Nat) (h37 : 37 ≤ n) (h46 : n ≤ 46) (hm : m < 227) (he : e.keycode = (n : Int))
    (htab : map_keypad[n - 37]? = some (m : Int)) :
    key_map k e = some (m : Int) := by
  unfold key_map
  have h1 : e.keycode < (ALLEGRO_KEY_MAX : Int) := by
    rw [he]
    simp only [ALLEGRO_KEY_MAX]
    omega
  have h2 : ¬ e.keycode = ALLEGRO_KEY_A := by
    rw [he]
    simp only [ALLEGRO_KEY_A]
    omega
  have h3 : e.keycode ≥ ALLEGRO_KEY_PAD_0 ∧ e.keycode ≤ ALLEGRO_KEY_PAD_9 ∧ k.keypad = true
      ∧ ¬ (e.modifiers &&& ALLEGRO_KEYMOD_NUMLOCK ≠ 0) := by
    rw [he]
    simp only [ALLEGRO_KEY_PAD_0, ALLEGRO_KEY_PAD_9]
    exact ⟨by omega, by omega, hkeypad, by simp [hmod]⟩
  have h4 : e.keycode - ALLEGRO_KEY_PAD_0 = ((n - 37 : Nat) : Int) := by
    rw [he]
    simp only [ALLEGRO_KEY_PAD_0]
    omega
  simp only [h1, h2, h3, if_true, if_false, and_self]
  rw [h4, map_keypad_at_nat, htab]
  exact keylookup_at_identity k hid m hm

/-- The branch of `key_map` taken by a keypad digit when the substitution does
not apply. -/
theorem key_map_keypad_off (k : Keyboard) (e : KeyboardEvent)
    (hid : ∀ i : Fin 227, k.keylookup i = (i.val : Int))
    (hoff : k.keypad = false ∨ e.modifiers &&& ALLEGRO_KEYMOD_NUMLOCK ≠ 0)
    (h37 : ALLEGRO_KEY_PAD_0 ≤ e.keycode) (h46 : e.keycode ≤ ALLEGRO_KEY_PAD_9) :
    key_map k e = some e.keycode := by
  unfold key_map
  simp only [ALLEGRO_KEY_PAD_0, ALLEGRO_KEY_PAD_9] at h37 h46
  have h1 : e.keycode < (ALLEGRO_KEY_MAX : Int) := by
    simp only [ALLEGRO_KEY_MAX]
    omega
  have h2 : ¬ e.keycode = ALLEGRO_KEY_A := by
    simp only [ALLEGRO_KEY_A]
    omega
  have h3 : ¬ (e.keycode ≥ ALLEGRO_KEY_PAD_0 ∧ e.keycode ≤ ALLEGRO_KEY_PAD_9
      ∧ k.keypad = true ∧ ¬ (e.modifiers &&& ALLEGRO_KEYMOD_NUMLOCK ≠ 0)) := by
    rintro ⟨_, _, hk, hm⟩
    cases hoff with
    | inl h => rw [h] at hk; cases hk
    | inr h => exact hm h
  simp only [h1, h2, h3, if_true, if_false]
  have hn : e.keycode = ((e.keycode.toNat : Nat) : Int) := by omega
  rw [hn]
  exact keylookup_at_identity k hid e.keycode.toNat (by omega)

/-- C13: with keylookup the identity, keypad set and ALLEGRO_KEYMOD_NUMLOCK absent
from the modifiers of the event, key_map sends PAD_0 to INSERT, PAD_1 to END,
PAD_2 to DOWN, PAD_3 to PGDN, PAD_4 to LEFT, PAD_5 to PAD_5, PAD_6 to RIGHT,
PAD_7 to HOME, PAD_8 to UP and PAD_9 to PGUP; and when keypad is clear or the
modifier is present, key_map returns every keypad digit code unchanged. -/
theorem keypad_digits_follow_map_keypad (k : Keyboard) (e : KeyboardEvent)
    (hid : ∀ i : Fin 227, k.keylookup i = (i.val : Int)) :
    (k.keypad = true → e.modifiers &&& ALLEGRO_KEYMOD_NUMLOCK = 0 →
      (e.keycode = ALLEGRO_KEY_PAD_0 → key_map k e = some ALLEGRO_KEY_INSERT) ∧
      (e.keycode = ALLEGRO_KEY_PAD_1 → key_map k e = some ALLEGRO_KEY_END) ∧
      (e.keycode = ALLEGRO_KEY_PAD_2 → key_map k e = some ALLEGRO_KEY_DOWN) ∧
      (e.keycode = ALLEGRO_KEY_PAD_3 → key_map k e = some ALLEGRO_KEY_PGDN) ∧
      (e.keycode = ALLEGRO_KEY_PAD_4 → key_map k e = some ALLEGRO_KEY_LEFT) ∧
      (e.keycode = ALLEGRO_KEY_PAD_5 → key_map k e = some ALLEGRO_KEY_PAD_5) ∧
      (e.keycode = ALLEGRO_KEY_PAD_6 → key_map k e = some ALLEGRO_KEY_RIGHT) ∧
      (e.keycode = ALLEGRO_KEY_PAD_7 → key_map k e = some ALLEGRO_KEY_HOME) ∧
      (e.keycode = ALLEGRO_KEY_PAD_8 → key_map k e = some ALLEGRO_KEY_UP) ∧
      (e.keycode = ALLEGRO_KEY_PAD_9 → key_map k e = some ALLEGRO_KEY_PGUP)) ∧
    ((k.keypad = false ∨ e.modifiers &&& ALLEGRO_KEYMOD_NUMLOCK ≠ 0) →
      ALLEGRO_KEY_PAD_0 ≤ e.keycode → e.keycode ≤ ALLEGRO_KEY_PAD_9 →
      key_map k e = some e.keycode) := by
  constructor
  · intro hkeypad hmod
    have sub := key_map_keypad_on k e hid hkeypad hmod
    refine ⟨?_, ?_, ?_, ?_, ?_, ?_, ?_, ?_, ?_, ?_⟩
    · intro he
      exact sub 37 76 (by omega) (by omega) (by omega) he rfl
    · intro he
      exact sub 38 79 (by omega) (by omega) (by omega) he rfl
    · intro he
      exact sub 39 85 (by omega) (by omega) (by omega) he rfl
    · intro he
      exact sub 40 81 (by omega) (by omega) (by omega) he rfl
    · intro he
      exact sub 41 82 (by omega) (by omega) (by omega) he rfl
    · intro he
      exact sub 42 42 (by omega) (by omega) (by omega) he rfl
    · intro he
      exact sub 43 83 (by omega) (by omega) (by omega) he rfl
    · intro he
      exact sub 44 78 (by omega) (by omega) (by omega) he rfl
    · intro he
      exact sub 45 84 (by omega) (by omega) (by omega) he rfl
    · intro he
      exact sub 46 80 (by omega) (by omega) (by omega) he rfl
  · intro hoff h37 h46
    exact key_map_keypad_off k e hid hoff h37 h46

/-- C13 at concrete inputs: with the identity table and keypad set, keypad 7
without modifiers is sent to Home; with keypad clear it stays keypad 7. -/
theorem keypad_digits_follow_map_keypad_witness :
    key_map { with_identity_lookup initial with keypad := true }
        { keycode := ALLEGRO_KEY_PAD_7, unichar := 0, modifiers := 0 }
      = some ALLEGRO_KEY_HOME ∧
    key_map (with_identity_lookup initial)
        { keycode := ALLEGRO_KEY_PAD_7, unichar := 55, modifiers := 0 }
      = some ALLEGRO_KEY_PAD_7 :=
  ⟨((keypad_digits_follow_map_keypad { with_identity_lookup initial with keypad := true }
      { keycode := ALLEGRO_KEY_PAD_7, unichar := 0, modifiers := 0 } (fun _ => rfl)).1
      rfl (by decide)).2.2.2.2.2.2.2.1 rfl,
   (keypad_digits_follow_map_keypad (with_identity_lookup initial)
      { keycode := ALLEGRO_KEY_PAD_7, unichar := 55, modifiers := 0 } (fun _ => rfl)).2
      (Or.inl rfl) (by decide) (by decide)⟩

/-! ## Codes outside the table -/

theorem allegro2bbc_at_outside {code : Int} (h : code < 0 ∨ 227 ≤ code) :
    allegro2bbc_at code = none := by
  unfold allegro2bbc_at
  cases h with
  | inl hneg =>
    rw [if_neg (by omega)]
  | inr hbig =>
    rw [if_pos (by omega)]
    apply List.getElem?_eq_none
    have hl : allegro2bbc.length = 227 := rfl
    omega

/-- C14, the code at the failing inputs: for every code at or past
ALLEGRO_KEY_MAX = 227, and for every negative code, set_key indexes allegro2bbc
outside its 227 entries, for key_down and for key_up alike, whereas
key_code_down tests the code against ALLEGRO_KEY_MAX first and returns false
for a code at or past it. -/
theorem set_key_reads_outside_table (mc : Machine) (k : Keyboard) (n : Nat) :
    allegro2bbc.length = 227 ∧
    key_down mc (227 + (n : Int)) k = none ∧ key_up mc (227 + (n : Int)) k = none ∧
    key_down mc (-1 - (n : Int)) k = none ∧ key_up mc (-1 - (n : Int)) k = none ∧
    key_code_down k (227 + (n : Int)) = some false := by
  have hbig : allegro2bbc_at (227 + (n : Int)) = none :=
    allegro2bbc_at_outside (Or.inr (by omega))
  have hneg : allegro2bbc_at (-1 - (n : Int)) = none :=
    allegro2bbc_at_outside (Or.inl (by omega))
  refine ⟨rfl, ?_, ?_, ?_, ?_, ?_⟩
  · unfold key_down set_key
    rw [hbig]
  · unfold key_up set_key
    rw [hbig]
  · unfold key_down set_key
    rw [hneg]
  · unfold key_up set_key
    rw [hneg]
  · unfold key_code_down
    have h : ¬ (227 + (n : Int) < (ALLEGRO_KEY_MAX : Int)) := by
      simp only [ALLEGRO_KEY_MAX]
      omega
    rw [if_neg h]

/-! ## The query by host code -/

theorem key_code_down_cell (k : Keyboard) {code : Int} {v : Nat}
    (hv : allegro2bbc_at code = some v) :
    key_code_down k code = some (decide (k.bbckey (vkey_col v) (vkey_row v) ≠ 0)) := by
  have hlt := allegro2bbc_at_lt hv
  have hr := allegro2bbc_at_range hv
  unfold key_code_down
  have h : code < (ALLEGRO_KEY_MAX : Int) := by
    simp only [ALLEGRO_KEY_MAX]
    omega
  rw [if_pos h, hv]
  simp only []
  have hcell : bbckey_at k ((v &&& 0x0f : Nat) : Int) ((v >>> 4 : Nat) : Int)
      = some (k.bbckey (vkey_col v) (vkey_row v)) := by
    unfold bbckey_at
    rw [index_vkey_col hlt, index_vkey_row hlt]
  rw [hcell]

/-- C15: for every state and every code with a defined mapping, key_code_down
returns whether the cell the table entry designates (column = low nibble, row =
high nibble) is set, whatever keycol and keyrow are (the function reads neither
the scan mode nor kbdips); it returns true in the state key_down(c) returns and
false in the state key_up(c) returns, and these calls return unless the
scan-specific-key mode meets a negative selected column; for every code at or
past ALLEGRO_KEY_MAX it returns false. -/
theorem key_code_down_reads_mapped_cell (mc : Machine) (k : Keyboard) :
    (∀ (code : Int) (v : Nat), allegro2bbc_at code = some v → v ≠ 0xaa →
      (∀ col row : Int, key_code_down { k with keycol := col, keyrow := row } code
        = some (decide (k.bbckey (vkey_col v) (vkey_row v) ≠ 0))) ∧
      (∀ k1, key_down mc code k = some k1 → key_code_down k1 code = some true) ∧
      (∀ k1, key_up mc code k = some k1 → key_code_down k1 code = some false) ∧
      (mc.IC32 &&& 8 ≠ 0 ∨ 0 ≤ k.keycol →
        (∃ k1, key_down mc code k = some k1) ∧ ∃ k1, key_up mc code k = some k1)) ∧
    (∀ code : Int, (ALLEGRO_KEY_MAX : Int) ≤ code → key_code_down k code = some false) := by
  constructor
  · intro code v hv hne
    refine ⟨?_, ?_, ?_, ?_⟩
    · intro col row
      exact key_code_down_cell _ hv
    · intro k1 h1
      obtain ⟨lvl, hk1⟩ := (set_key_effect mc k 1 hv hne).1 k1 h1
      rw [key_code_down_cell k1 hv, hk1]
      simp [sysvia_set_ca2, store]
    · intro k1 h1
      obtain ⟨lvl, hk1⟩ := (set_key_effect mc k 0 hv hne).1 k1 h1
      rw [key_code_down_cell k1 hv, hk1]
      simp [sysvia_set_ca2, store]
    · intro hsel
      exact ⟨(set_key_effect mc k 1 hv hne).2 hsel, (set_key_effect mc k 0 hv hne).2 hsel⟩
  · intro code hge
    unfold key_code_down
    rw [if_neg (by omega)]

set_option maxRecDepth 100000 in
/-- C15 at concrete inputs: the code of A (entry 0x41) on a Model B in autoscan
mode from the initial state, and the code 300. -/
theorem key_code_down_reads_mapped_cell_witness :
    ((∃ k1, key_down model_b_autoscan 1 initial = some k1) ∧
      ∃ k1, key_up model_b_autoscan 1 initial = some k1) ∧
    key_code_down initial 300 = some false :=
  ⟨((key_code_down_reads_mapped_cell model_b_autoscan initial).1 1 0x41 rfl
      (by decide)).2.2.2 (Or.inl (by decide)),
   (key_code_down_reads_mapped_cell model_b_autoscan initial).2 300 (by decide)⟩

/-! ## Last write wins -/

theorem last_write_no_hit (evs : List Input) (c r : Fin 16) :
    ∀ x : Int, (∀ e ∈ evs, e.hits c r = false) → last_write evs c r x = x := by
  induction evs with
  | nil =>
    intro x _
    rfl
  | cons e es ih =>
    intro x h
    have he : e.hits c r = false := h e (List.mem_cons_self e es)
    show last_write es c r (if e.hits c r = true then e.state else x) = x
    rw [he]
    exact ih x (fun e1 h1 => h e1 (List.mem_cons_of_mem e h1))

theorem last_write_last_hit (pre post : List Input) (e : Input) (c r : Fin 16) (x : Int)
    (he : e.hits c r = true) (hpost : ∀ e2 ∈ post, e2.hits c r = false) :
    last_write (pre ++ e :: post) c r x = e.state := by
  have h1 : last_write (pre ++ e :: post) c r x
      = last_write post c r (if e.hits c r = true then e.state else last_write pre c r x) := by
    simp [last_write, List.foldl_append]
  rw [h1, if_pos he]
  exact last_write_no_hit post c r e.state hpost

/-- C16: a finite sequence of key_down/key_up events with codes in
[0, ALLEGRO_KEY_MAX), applied in order to any initial matrix, runs to its end
(unless the scan-specific-key mode meets a negative selected column), and each
cell of the final matrix holds the value (1 for key_down, 0 for key_up) of the
last event of the sequence whose code maps to that cell, and its initial value
when no event maps to it. -/
theorem final_matrix_is_last_write (mc : Machine) (k : Keyboard) (evs : List Input)
    (hrange : ∀ e ∈ evs, 0 ≤ e.code ∧ e.code < (ALLEGRO_KEY_MAX : Int))
    (hsel : mc.IC32 &&& 8 ≠ 0 ∨ 0 ≤ k.keycol) :
    ∃ k1, run mc evs k = some k1 ∧
      ∀ c r : Fin 16,
        ((∀ e ∈ evs, e.hits c r = false) → k1.bbckey c r = k.bbckey c r) ∧
        (∀ (pre post : List Input) (e : Input), evs = pre ++ e :: post →
          e.hits c r = true → (∀ e2 ∈ post, e2.hits c r = false) →
          k1.bbckey c r = e.state) := by
  obtain ⟨k1, hrun⟩ := run_total mc evs hrange k hsel
  refine ⟨k1, hrun, ?_⟩
  intro c r
  have hcell := run_bbckey mc evs k k1 hrun c r
  constructor
  · intro hno
    rw [hcell]
    exact last_write_no_hit evs c r _ hno
  · intro pre post e hsplit he hpost
    rw [hcell, hsplit]
    exact last_write_last_hit pre post e c r _ he hpost

set_option maxRecDepth 100000 in
/-- C16 at concrete inputs: the events down Delete (77), down A (1), up Backspace
(63) on the initial state of a Model B in autoscan mode; Delete and Backspace
share cell (column 9, row 5), whose last event is the key_up. -/
theorem final_matrix_is_last_write_witness :
    ∃ k1, run model_b_autoscan [Input.down 77, Input.down 1, Input.up 63] initial
        = some k1 ∧
      ∀ c r : Fin 16,
        ((∀ e ∈ [Input.down 77, Input.down 1, Input.up 63], e.hits c r = false) →
          k1.bbckey c r = initial.bbckey c r) ∧
        (∀ (pre post : List Input) (e : Input),
          [Input.down 77, Input.down 1, Input.up 63] = pre ++ e :: post →
          e.hits c r = true → (∀ e2 ∈ post, e2.hits c r = false) →
          k1.bbckey c r = e.state) :=
  final_matrix_is_last_write model_b_autoscan initial
    [Input.down 77, Input.down 1, Input.up 63] (by decide) (Or.inl (by decide))

/-! ## What the level depends on -/

theorem bbckey_at_congr {k1 k2 : Keyboard} (h : k1.bbckey = k2.bbckey) (col row : Int) :
    bbckey_at k1 col row = bbckey_at k2 col row := by
  unfold bbckey_at
  rw [h]

theorem scan_rows_congr {k1 k2 : Keyboard} (h : k1.bbckey = k2.bbckey) (col : Int)
    (rows : List Int) : scan_rows k1 col rows = scan_rows k2 col rows := by
  induction rows with
  | nil => rfl
  | cons row rest ih =>
    unfold scan_rows
    rw [bbckey_at_congr h, ih]

theorem scan_cols_congr {k1 k2 : Keyboard} (h : k1.bbckey = k2.bbckey) (rows cols : List Int) :
    scan_cols k1 rows cols = scan_cols k2 rows cols := by
  induction cols with
  | nil => rfl
  | cons col rest ih =>
    unfold scan_cols
    rw [scan_rows_congr h, ih]

/-- The level `key_update` emits depends on the state only through the matrix
and the selected column. -/
theorem key_level_congr (mc : Machine) {k1 k2 : Keyboard} (h : k1.bbckey = k2.bbckey)
    (hcol : k1.keycol = k2.keycol) : key_level mc k1 = key_level mc k2 := by
  unfold key_level key_update
  rw [scan_cols_congr h, scan_rows_congr h, hcol]
  split
  · split <;> rfl
  · split
    · split <;> rfl
    · rfl

theorem key_level_of_update {mc : Machine} {k : Keyboard} {lvl : Int}
    (h : key_update mc k = some (sysvia_set_ca2 lvl k)) : key_level mc k = some lvl := by
  unfold key_level
  rw [h]
  rfl

/-- The state `key_update` returns satisfies the interrupt-level invariant. -/
theorem key_update_level_ok {mc : Machine} {k k1 : Keyboard} (h : key_update mc k = some k1) :
    level_ok mc k1 := by
  obtain ⟨lvl, hk1⟩ := key_update_eq h
  rw [hk1] at h
  refine ⟨lvl, by rw [hk1]; rfl, ?_⟩
  rw [hk1, @key_level_congr mc (sysvia_set_ca2 lvl k) k rfl rfl]
  exact key_level_of_update h

/-- On a matrix that is 0 everywhere `key_update` emits level 0. -/
theorem key_level_clear (mc : Machine) (k : Keyboard)
    (hsel : mc.IC32 &&& 8 ≠ 0 ∨ 0 ≤ k.keycol) (hzero : ∀ c r : Fin 16, k.bbckey c r = 0) :
    key_level mc k = some 0 := by
  by_cases hauto : mc.IC32 &&& 8 ≠ 0
  · obtain ⟨b, hb, hiff⟩ := key_update_autoscan mc k hauto
    cases b with
    | false => exact key_level_of_update hb
    | true =>
      obtain ⟨c, r, _, _, _, h⟩ := hiff.mp rfl
      exact absurd (hzero c r) h
  · have hcol : mc.IC32 &&& 8 = 0 := by simpa using hauto
    have h0 : 0 ≤ k.keycol := hsel.resolve_left hauto
    by_cases hge : (maxcol mc : Int) ≤ k.keycol
    · exact key_level_of_update (key_update_column_unwired mc k hcol hge)
    · have hm := maxcol_le mc
      have hn : k.keycol.toNat < 16 := by omega
      have hc1 : k.keycol = ((⟨k.keycol.toNat, hn⟩ : Fin 16).val : Int) := by
        simp
        omega
      have hlt : (⟨k.keycol.toNat, hn⟩ : Fin 16).val < maxcol mc := by
        simp
        omega
      obtain ⟨b, hb, hiff⟩ := key_update_column mc k hcol _ hc1 hlt
      cases b with
      | false => exact key_level_of_update hb
      | true =>
        obtain ⟨r, _, _, h⟩ := hiff.mp rfl
        exact absurd (hzero _ r) h

/-! ## Selecting a row and a column -/

/-- C17: for every state, mode and column, key_scan(r1, col) and key_scan(r2, col)
emit the same level for all rows r1 and r2 (and a level is emitted whenever col
is not negative); and for row and col in 0..15 with row != 0 or col outside
[2, 9], key_is_down after key_scan(row, col) returns whether cell (col, row) of
the matrix is set. -/
theorem keyrow_affects_point_query_only (mc : Machine) (k : Keyboard) :
    (∀ col r1 r2 : Int,
      (key_scan mc r1 col k).bind ca2_level = (key_scan mc r2 col k).bind ca2_level) ∧
    (∀ col r : Int, 0 ≤ col → ∃ lvl, (key_scan mc r col k).bind ca2_level = some lvl) ∧
    (∀ row col : Fin 16, (row.val ≠ 0 ∨ col.val < 2 ∨ 9 < col.val) →
      (∃ k1, key_scan mc (row.val : Int) (col.val : Int) k = some k1) ∧
      ∀ k1, key_scan mc (row.val : Int) (col.val : Int) k = some k1 →
        key_is_down mc k1 = some (decide (k.bbckey col row ≠ 0))) := by
  refine ⟨?_, ?_, ?_⟩
  · intro col r1 r2
    exact @key_level_congr mc { k with keyrow := r1, keycol := col }
      { k with keyrow := r2, keycol := col } rfl rfl
  · intro col r hcol
    obtain ⟨lvl, h⟩ := key_update_total mc { k with keyrow := r, keycol := col }
      (Or.inr hcol)
    refine ⟨lvl, ?_⟩
    unfold key_scan
    rw [h]
    rfl
  · intro row col hsel
    constructor
    · obtain ⟨lvl, h⟩ := key_update_total mc
        { k with keyrow := (row.val : Int), keycol := (col.val : Int) } (Or.inr (by simp))
      exact ⟨_, h⟩
    · intro k1 h1
      obtain ⟨lvl, hk1⟩ := key_update_eq h1
      rw [hk1]
      unfold key_is_down
      have hno : ¬ ((row.val : Int) = 0 ∧ (col.val : Int) ≥ 2 ∧ (col.val : Int) ≤ 9) := by
        omega
      simp only [sysvia_set_ca2]
      rw [if_neg hno]
      have hcell := bbckey_at_fin
        ({ k with keyrow := (row.val : Int), keycol := (col.val : Int), ca2 := lvl :: k.ca2 })
        col row
      rw [hcell]

/-- C17 at concrete inputs: on a Model B in autoscan mode, the initial state with
cell (column 3, row 2) set; key_scan(2, 3) and key_scan(5, 3) emit one level, and
after key_scan(2, 3) key_is_down reads cell (3, 2). -/
theorem keyrow_affects_point_query_only_witness :
    (∃ lvl, (key_scan model_b_autoscan 2 3 (store initial 3 2 1)).bind ca2_level
      = some lvl) ∧
    ((∃ k1, key_scan model_b_autoscan ((2 : Fin 16).val : Int) ((3 : Fin 16).val : Int)
        (store initial 3 2 1) = some k1) ∧
      ∀ k1, key_scan model_b_autoscan ((2 : Fin 16).val : Int) ((3 : Fin 16).val : Int)
          (store initial 3 2 1) = some k1 →
        key_is_down model_b_autoscan k1
          = some (decide ((store initial 3 2 1).bbckey 3 2 ≠ 0))) :=
  ⟨(keyrow_affects_point_query_only model_b_autoscan (store initial 3 2 1)).2.1 3 2
      (by decide),
   (keyrow_affects_point_query_only model_b_autoscan (store initial 3 2 1)).2.2 2 3
      (Or.inl (by decide))⟩

/-! ## The interrupt-level invariant -/

theorem set_key_level_ok (mc : Machine) (k : Keyboard) (code st : Int)
    (h0 : 0 ≤ code) (h1 : code < (ALLEGRO_KEY_MAX : Int)) (hk : level_ok mc k) :
    ∀ k1, set_key mc code st k = some k1 → level_ok mc k1 := by
  intro k1 hk1
  obtain ⟨v, hv⟩ := allegro2bbc_at_some h0 (by simpa [ALLEGRO_KEY_MAX] using h1)
  by_cases hne : v = 0xaa
  · subst hne
    rw [set_key_unmapped mc k st hv] at hk1
    have : k1 = k := by simpa using hk1.symm
    rw [this]
    exact hk
  · rw [set_key_mapped mc k st hv hne] at hk1
    exact key_update_level_ok hk1

/-- C18: with IC32 and MASTER held fixed, the invariant level_ok (the level last
passed to sysvia_set_ca2 is the level key_update computes from the matrix, the
selected column and the mode) holds after key_clear, after key_down and key_up of
every code with a defined mapping and after every key_scan, whatever the state
before; key_down and key_up of any code in [0, ALLEGRO_KEY_MAX) preserve it; and
the calls return unless the scan-specific-key mode meets a negative selected
column (a condition that is also needed for key_update to compute a level after
key_clear). -/
theorem interrupt_level_invariant (mc : Machine) (k : Keyboard) :
    ((mc.IC32 &&& 8 ≠ 0 ∨ 0 ≤ k.keycol) → level_ok mc (key_clear k)) ∧
    (∀ (code : Int) (v : Nat), allegro2bbc_at code = some v → v ≠ 0xaa →
      (∀ k1, key_down mc code k = some k1 → level_ok mc k1) ∧
      (∀ k1, key_up mc code k = some k1 → level_ok mc k1)) ∧
    (∀ code : Int, 0 ≤ code → code < (ALLEGRO_KEY_MAX : Int) → level_ok mc k →
      (∀ k1, key_down mc code k = some k1 → level_ok mc k1) ∧
      (∀ k1, key_up mc code k = some k1 → level_ok mc k1)) ∧
    (∀ (row col : Int) (k1 : Keyboard), key_scan mc row col k = some k1 → level_ok mc k1) ∧
    ((mc.IC32 &&& 8 ≠ 0 ∨ 0 ≤ k.keycol) →
      ∀ code : Int, 0 ≤ code → code < (ALLEGRO_KEY_MAX : Int) →
        (∃ k1, key_down mc code k = some k1) ∧ ∃ k1, key_up mc code k = some k1) ∧
    (∀ row col : Int, mc.IC32 &&& 8 ≠ 0 ∨ 0 ≤ col → ∃ k1, key_scan mc row col k = some k1) := by
  refine ⟨?_, ?_, ?_, ?_, ?_, ?_⟩
  · intro hsel
    refine ⟨0, ?_, ?_⟩
    · rw [key_clear_eq]
      rfl
    · apply key_level_clear
      · rw [key_clear_keycol]
        exact hsel
      · exact key_clear_bbckey k
  · intro code v hv hne
    constructor
    · intro k1 hk1
      unfold key_down at hk1
      rw [set_key_mapped mc k 1 hv hne] at hk1
      exact key_update_level_ok hk1
    · intro k1 hk1
      unfold key_up at hk1
      rw [set_key_mapped mc k 0 hv hne] at hk1
      exact key_update_level_ok hk1
  · intro code h0 h1 hk
    exact ⟨set_key_level_ok mc k code 1 h0 h1 hk, set_key_level_ok mc k code 0 h0 h1 hk⟩
  · intro row col k1 hk1
    exact key_update_level_ok hk1
  · intro hsel code h0 h1
    obtain ⟨k1, hk1, _⟩ := set_key_total mc k code 1 h0 h1 hsel
    obtain ⟨k2, hk2, _⟩ := set_key_total mc k code 0 h0 h1 hsel
    exact ⟨⟨k1, hk1⟩, ⟨k2, hk2⟩⟩
  · intro row col hsel
    obtain ⟨lvl, h⟩ := key_update_total mc { k with keyrow := row, keycol := col } hsel
    exact ⟨_, h⟩

set_option maxRecDepth 100000 in
/-- C18 at concrete inputs: on a Model B in autoscan mode, the invariant holds
after key_clear of the initial state and in the state key_down of A returns. -/
theorem interrupt_level_invariant_witness :
    level_ok model_b_autoscan (key_clear initial) ∧
    ∀ k1, key_down model_b_autoscan 1 initial = some k1 → level_ok model_b_autoscan k1 :=
  ⟨(interrupt_level_invariant model_b_autoscan initial).1 (Or.inl (by decide)),
   ((interrupt_level_invariant model_b_autoscan initial).2.1 1 0x41
      rfl (by decide)).1⟩

/-! ## The level emitted in the scan-specific-key mode -/

/-- In the scan-specific-key mode `key_update` emits level 0 for a selected
column at or past `maxcol`; for a wired selected column it emits a level, 0 or 1,
that is 1 exactly when some cell of rows 1-7 of the column is set; hence, when
rows 8-15 of the column are clear, exactly when some cell of its rows 1-15 is set. -/
theorem column_level_rows_one_to_seven (mc : Machine) (k : Keyboard)
    (hcol : mc.IC32 &&& 8 = 0) :
    ((maxcol mc : Int) ≤ k.keycol → key_level mc k = some 0) ∧
    (∀ c : Fin 16, k.keycol = (c.val : Int) → c.val < maxcol mc →
      ∃ lvl, key_level mc k = some lvl ∧ (lvl = 1 ∨ lvl = 0) ∧
        (lvl = 1 ↔ ∃ r : Fin 16, 1 ≤ r.val ∧ r.val ≤ 7 ∧ k.bbckey c r ≠ 0) ∧
        ((∀ r : Fin 16, 8 ≤ r.val → k.bbckey c r = 0) →
          (lvl = 1 ↔ ∃ r : Fin 16, 1 ≤ r.val ∧ k.bbckey c r ≠ 0))) := by
  constructor
  · intro hge
    exact key_level_of_update (key_update_column_unwired mc k hcol hge)
  · intro c hc hlt
    obtain ⟨b, hb, hiff⟩ := key_update_column mc k hcol c hc hlt
    have hb1 : (if b = true then (1 : Int) else 0) = 1 ↔ b = true := by
      cases b <;> simp
    refine ⟨_, key_level_of_update hb, ?_, ?_, ?_⟩
    · cases b
      · exact Or.inr rfl
      · exact Or.inl rfl
    · rw [hb1, hiff]
      constructor
      · rintro ⟨r, h1, h2, h3⟩
        exact ⟨r, h1, by omega, h3⟩
      · rintro ⟨r, h1, h2, h3⟩
        exact ⟨r, h1, by omega, h3⟩
    · intro hhigh
      rw [hb1, hiff]
      constructor
      · rintro ⟨r, h1, _, h3⟩
        exact ⟨r, h1, h3⟩
      · rintro ⟨r, h1, h3⟩
        refine ⟨r, h1, ?_, h3⟩
        by_contra hge
        exact h3 (hhigh r (by omega))

/-! ## Cells outside the wired matrix -/

theorem set_key_high_cells {mc : Machine} {code st : Int} {k k1 : Keyboard}
    (h : set_key mc code st k = some k1) (c r : Fin 16) (hout : 8 ≤ r.val ∨ 13 ≤ c.val)
    (hk : k.bbckey c r = 0) : k1.bbckey c r = 0 := by
  cases hv : allegro2bbc_at code with
  | none =>
    unfold set_key at h
    rw [hv] at h
    simp at h
  | some v =>
    by_cases hne : v = 0xaa
    · subst hne
      rw [set_key_unmapped mc k st hv] at h
      have : k1 = k := by simpa using h.symm
      rw [this]
      exact hk
    · obtain ⟨lvl, hk1⟩ := (set_key_effect mc k st hv hne).1 k1 h
      have hlt := allegro2bbc_at_lt hv
      have hb := table_mapped_bounds v (allegro2bbc_at_mem hv) hne
      have hcell : ¬ (c = vkey_col v ∧ r = vkey_row v) := by
        rintro ⟨h1, h2⟩
        have hc : c.val = v &&& 15 := by rw [h1, vkey_col_val hlt]
        have hr : r.val = v >>> 4 := by rw [h2, vkey_row_val hlt]
        omega
      rw [hk1]
      simp only [sysvia_set_ca2, store]
      rw [if_neg hcell]
      exact hk

theorem reachable_high_cells {k : Keyboard} (hr : Reachable k) :
    ∀ c r : Fin 16, (8 ≤ r.val ∨ 13 ≤ c.val) → k.bbckey c r = 0 := by
  induction hr with
  | clear k0 =>
    intro c r _
    exact key_clear_bbckey k0 c r
  | down mc code k0 k1 _ h ih =>
    intro c r hout
    exact set_key_high_cells h c r hout (ih c r hout)
  | up mc code k0 k1 _ h ih =>
    intro c r hout
    exact set_key_high_cells h c r hout (ih c r hout)
  | scan mc row col k0 k1 _ h ih =>
    intro c r hout
    obtain ⟨lvl, hk1⟩ := key_update_eq h
    rw [hk1]
    exact ih c r hout

/-- C20: every entry of allegro2bbc other than 0xaa has column (low nibble) at
most 12 and row (high nibble) at most 7; hence in every state reached from
key_clear by key_down, key_up and key_scan calls (key events with codes in
[0, ALLEGRO_KEY_MAX)), every cell with row >= 8 or column >= 13 is clear; in
particular cell (column 10, row 10), which the value 0xaa designates, is clear,
and key_code_down returns false for every code in range whose entry is 0xaa. -/
theorem reachable_cells_lie_in_wired_matrix :
    (∀ v ∈ allegro2bbc, v ≠ 0xaa → v &&& 15 ≤ 12 ∧ v >>> 4 ≤ 7) ∧
    (∀ k : Keyboard, Reachable k →
      (∀ c r : Fin 16, (8 ≤ r.val ∨ 13 ≤ c.val) → k.bbckey c r = 0) ∧
      k.bbckey 10 10 = 0 ∧
      ∀ code : Int, allegro2bbc_at code = some 0xaa → key_code_down k code = some false) := by
  constructor
  · intro v hv hne
    have hb := table_mapped_bounds v hv hne
    omega
  · intro k hr
    have hhigh := reachable_high_cells hr
    have h1010 : k.bbckey 10 10 = 0 := hhigh 10 10 (Or.inl (by decide))
    refine ⟨hhigh, h1010, ?_⟩
    intro code hv
    rw [key_code_down_cell k hv]
    have hc : vkey_col 0xaa = 10 := by decide
    have hrow : vkey_row 0xaa = 10 := by decide
    rw [hc, hrow, h1010]
    rfl

/-! ## The level on reachable states -/

set_option maxRecDepth 100000 in
theorem key_down_keypad_two :
    key_down master_autoscan 39 (key_clear initial) = some keypad_two_down := by
  rfl

set_option maxRecDepth 100000 in
theorem key_down_q : key_down model_b_column 17 (key_clear initial) = some q_down := by
  rfl

theorem keypad_two_down_reachable : Reachable keypad_two_down :=
  Reachable.down master_autoscan 39 (key_clear initial) keypad_two_down
    (Reachable.clear initial) key_down_keypad_two

theorem q_down_reachable : Reachable q_down :=
  Reachable.down model_b_column 17 (key_clear initial) q_down
    (Reachable.clear initial) key_down_q

set_option maxRecDepth 100000 in
theorem key_scan_column_twelve :
    key_scan model_b_column 0 12 q_down = some column_twelve_selected := by
  rfl

theorem column_twelve_selected_reachable : Reachable column_twelve_selected :=
  Reachable.scan model_b_column 0 12 q_down column_twelve_selected q_down_reachable
    key_scan_column_twelve

/-- C11: in autoscan mode (IC32 bit 3 set), for every matrix state the code can
hold (every state reached from key_clear by key_down, key_up and key_scan
calls), key_update emits a level, 0 or 1, and the level is 1 if and only if some
cell (col, row) with 0 <= col < maxcol (10 on the base model, 13 on the Master)
and 1 <= row <= 15 is set. -/
theorem autoscan_level_on_reachable (mc : Machine) (k : Keyboard)
    (hauto : mc.IC32 &&& 8 ≠ 0) (hr : Reachable k) :
    (maxcol mc = if mc.MASTER = true then 13 else 10) ∧
    ∃ lvl, key_level mc k = some lvl ∧ (lvl = 1 ∨ lvl = 0) ∧
      (lvl = 1 ↔ ∃ c r : Fin 16, c.val < maxcol mc ∧ 1 ≤ r.val ∧ r.val ≤ 15 ∧
        k.bbckey c r ≠ 0) := by
  obtain ⟨hmax, lvl, hlvl, h01, _, hall⟩ := autoscan_level_rows_one_to_seven mc k hauto
  refine ⟨hmax, lvl, hlvl, h01, ?_⟩
  rw [hall (fun c r h8 => reachable_high_cells hr c r (Or.inl h8))]
  constructor
  · rintro ⟨c, r, h1, h2, h3⟩
    exact ⟨c, r, h1, h2, by omega, h3⟩
  · rintro ⟨c, r, h1, h2, _, h3⟩
    exact ⟨c, r, h1, h2, h3⟩

/-- C11 at a concrete input: a Master in autoscan mode and the state reached by
key_clear of the initial state and key_down of keypad 2 (cell (12, 7)). -/
theorem autoscan_level_on_reachable_witness :
    ∃ lvl, key_level master_autoscan keypad_two_down = some lvl ∧ (lvl = 1 ∨ lvl = 0) ∧
      (lvl = 1 ↔ ∃ c r : Fin 16, c.val < maxcol master_autoscan ∧ 1 ≤ r.val ∧ r.val ≤ 15 ∧
        keypad_two_down.bbckey c r ≠ 0) :=
  (autoscan_level_on_reachable master_autoscan keypad_two_down (by decide)
    keypad_two_down_reachable).2

/-- C19: in the scan-specific-key mode (IC32 bit 3 clear), when the selected
column is not within the valid column count (keycol >= maxcol, maxcol = 10 base,
13 Master) key_update emits level 0 for every matrix state; and when keycol is a
column below maxcol, for every matrix state the code can hold (every state
reached from key_clear by key_down, key_up and key_scan calls), key_update emits
a level, 0 or 1, that is 1 if and only if some cell (keycol, row) with
1 <= row <= 15 is set. A negative keycol, with which key_update would index
bbckey outside its bounds, is not a column. -/
theorem column_level_on_reachable (mc : Machine) (k : Keyboard)
    (hcol : mc.IC32 &&& 8 = 0) :
    (maxcol mc = if mc.MASTER = true then 13 else 10) ∧
    ((maxcol mc : Int) ≤ k.keycol → key_level mc k = some 0) ∧
    (Reachable k → ∀ c : Fin 16, k.keycol = (c.val : Int) → c.val < maxcol mc →
      ∃ lvl, key_level mc k = some lvl ∧ (lvl = 1 ∨ lvl = 0) ∧
        (lvl = 1 ↔ ∃ r : Fin 16, 1 ≤ r.val ∧ r.val ≤ 15 ∧ k.bbckey c r ≠ 0)) := by
  refine ⟨rfl, (column_level_rows_one_to_seven mc k hcol).1, ?_⟩
  intro hr c hc hlt
  obtain ⟨lvl, hlvl, h01, _, hall⟩ := (column_level_rows_one_to_seven mc k hcol).2 c hc hlt
  refine ⟨lvl, hlvl, h01, ?_⟩
  rw [hall (fun r h8 => reachable_high_cells hr c r (Or.inl h8))]
  constructor
  · rintro ⟨r, h1, h2⟩
    exact ⟨r, h1, by omega, h2⟩
  · rintro ⟨r, h1, _, h2⟩
    exact ⟨r, h1, h2⟩

set_option maxRecDepth 100000 in
/-- C19 at concrete inputs: a Model B with IC32 = 0; the state reached by
key_clear, key_down of Q and key_scan(0, 12), where column 12 is past maxcol = 10;
and the state reached by key_clear and key_down of Q (cell (0, 1)), where
column 0 is selected. -/
theorem column_level_on_reachable_witness :
    key_level model_b_column column_twelve_selected = some 0 ∧
    ∃ lvl, key_level model_b_column q_down = some lvl ∧ (lvl = 1 ∨ lvl = 0) ∧
      (lvl = 1 ↔ ∃ r : Fin 16, 1 ≤ r.val ∧ r.val ≤ 15 ∧ q_down.bbckey 0 r ≠ 0) :=
  ⟨(column_level_on_reachable model_b_column column_twelve_selected (by decide)).2.1
      (by decide),
   (column_level_on_reachable model_b_column q_down (by decide)).2.2
      q_down_reachable 0 rfl (by decide)⟩

/-- C20 at a concrete input: the state reached by key_clear of the initial state
and key_down of keypad 2 on a Master in autoscan mode, and the code of F12 (58),
whose entry is 0xaa. -/
theorem reachable_cells_lie_in_wired_matrix_witness :
    (∀ c r : Fin 16, (8 ≤ r.val ∨ 13 ≤ c.val) → keypad_two_down.bbckey c r = 0) ∧
    keypad_two_down.bbckey 10 10 = 0 ∧
    ∀ code : Int, allegro2bbc_at code = some 0xaa →
      key_code_down keypad_two_down code = some false :=
  reachable_cells_lie_in_wired_matrix.2 keypad_two_down
    (Reachable.down master_autoscan 39 (key_clear initial) keypad_two_down
      (Reachable.clear initial) key_down_keypad_two)

end BEm
